import Mathlib

/-!
Verification development for the NSH roster-league board.

The definitions below are a shallow embedding of the assignment/placement
engine found in src/index.tsx (with identical logic duplicated in
src/App.tsx and the unnamed service/modal modules): the Member / Slot /
Squad / Group / GameConfig / AppData data model from src/types.ts, the
mutating handlers (pool reconciliation, click-to-place, drag-and-drop,
batch import, JSON import, config save, squad rename), and the derived
views (occupancy stats, group row layout).

Modelling conventions:
  - JavaScript nullable strings become Option String; JavaScript
    truthiness tests on them (`if (s)`) are embedded as jsTruthy, which is
    false exactly for null/absent and for the empty string.
  - Machine-generated ids (generateId, which draws on the clock and
    Math.random) are modelled by an abstract id supply `gen : Nat -> String`
    threaded through a counter.
  - JavaScript Set objects (insertion-ordered) are modelled as
    duplicate-free lists built with dedupList / insertNew, and Record
    objects as insertion-ordered association lists.
  - Persistence (saveData / localStorage) is modelled by a Bool component
    in the result of each handler recording whether saveData was invoked.
-/

namespace NshRoster

/-- Truthiness of a JavaScript `string | null` value: null and the empty
string are falsy, every other string is truthy. -/
def jsTruthy : Option String → Bool
  | none => false
  | some s => s ≠ ""

/-- Embedding of the JavaScript expression `x || d` for an optional string
`x`: the default is taken when `x` is absent or falsy (empty). -/
def jsOr (x : Option String) (d : String) : String :=
  match x with
  | none => d
  | some s => if s = "" then d else s

/-- Replace the element at index `i` by `f` applied to it; out-of-range
indices leave the list unchanged.  This is the building block for the
TypeScript in-place updates `xs[i] = ...` on the deep-cloned document. -/
def modifyIdx (f : α → α) : Nat → List α → List α
  | _, [] => []
  | 0, a :: as => f a :: as
  | n + 1, a :: as => a :: modifyIdx f n as

/-- Insertion-ordered set insert: append the element if it is not already
present (the behaviour of JavaScript `Set.add`). -/
def insertNew (l : List String) (x : String) : List String :=
  if x ∈ l then l else l ++ [x]

/-- Deduplicate a list keeping first occurrences, in order: the effect of
`new Set(xs)` followed by `Array.from`. -/
def dedupList (l : List String) : List String :=
  l.foldl insertNew []

/- ===================== Data model (src/types.ts) ===================== -/

/-- Member record from src/types.ts.  The optional `note` field is
modelled as a plain string with "" standing for absent: the code only
ever tests it for truthiness, where undefined and "" coincide. -/
structure Member where
  id : String
  name : String
  profession : String
  ult : String
  clan : String
  note : String := ""
  deriving DecidableEq, Repr

/-- Slot record from src/types.ts: a nullable member reference plus a
legacy note field. -/
structure Slot where
  id : String
  memberId : Option String
  note : String
  deriving DecidableEq, Repr

/-- Squad record from src/types.ts. -/
structure Squad where
  id : String
  name : String
  slots : List Slot
  deriving DecidableEq, Repr

/-- Group record from src/types.ts.  The optional `newLine` boolean is
modelled as a Bool (the code only tests its truthiness, where undefined
and false coincide). -/
structure Group where
  id : String
  name : String
  theme : Option String := none
  color : Option String := none
  strategy : Option String := none
  newLine : Bool := false
  squads : List Squad
  deriving DecidableEq, Repr

/-- Game configuration record from src/types.ts; professionColors is an
insertion-ordered association list. -/
structure GameConfig where
  ultSkills : List String
  clanSkills : List String
  professionColors : Option (List (String × String)) := none
  deriving DecidableEq, Repr

/-- Root document from src/types.ts. -/
structure AppData where
  pool : List Member
  groups : List Group
  gameConfig : Option GameConfig := none
  deriving DecidableEq, Repr

/-- Default ultimate-skill catalog from src/types.ts. -/
def DEFAULT_ULT_SKILLS : List String :=
  ["红莲", "凛月", "长歌", "狂啸", "繁花", "碧血", "太极", "无"]

/-- Default clan-skill catalog from src/types.ts. -/
def DEFAULT_CLAN_SKILLS : List String :=
  ["金钟罩", "善恶断", "明鉴护心", "不攻", "无"]

/-- Default profession colour map from src/types.ts. -/
def CLASS_COLORS : List (String × String) :=
  [("素问", "#F06292"), ("潮光", "#4FC3F7"), ("铁衣", "#FFB74D"),
   ("血河", "#E57373"), ("龙吟", "#81C784"), ("碎梦", "#4DD0E1"),
   ("沧澜", "#7986CB"), ("神相", "#64B5F6"), ("九灵", "#BA68C8"),
   ("玄机", "#FFF176"), ("未知", "#757575")]

/- ===================== Slot addressing helpers ===================== -/

/-- All slots of a group, in document order. -/
def groupSlots (g : Group) : List Slot :=
  (g.squads.map Squad.slots).flatten

/-- The flattened list of every slot in the document, in the order the
TypeScript forEach loops visit them. -/
def slotsOf (d : AppData) : List Slot :=
  (d.groups.map groupSlots).flatten

/-- Read the slot at `groups[g].squads[s].slots[sl]`, if the indices are
in range. -/
def slotAt? (d : AppData) (g s sl : Nat) : Option Slot :=
  match d.groups[g]? with
  | none => none
  | some grp =>
    match grp.squads[s]? with
    | none => none
    | some sq => sq.slots[sl]?

/-- Slot-level write of a member reference. -/
def setMemberId (v : Option String) (slot : Slot) : Slot :=
  { slot with memberId := v }

/-- Write within a slot list at index `sl`. -/
def updSlots (sl : Nat) (v : Option String) (slots : List Slot) : List Slot :=
  modifyIdx (setMemberId v) sl slots

/-- Write within a squad list: squad `s`, slot `sl`. -/
def updSquads (s sl : Nat) (v : Option String) (squads : List Squad) : List Squad :=
  modifyIdx (fun sq => { sq with slots := updSlots sl v sq.slots }) s squads

/-- Write within a group list: group `g`, squad `s`, slot `sl`. -/
def updGroups (g s sl : Nat) (v : Option String) (groups : List Group) : List Group :=
  modifyIdx (fun grp => { grp with squads := updSquads s sl v grp.squads }) g groups

/-- Write the member reference of the slot at `groups[g].squads[s].slots[sl]`
(embedding of `newData.groups[g].squads[s].slots[sl].memberId = v`);
out-of-range indices leave the document unchanged. -/
def updSlot (d : AppData) (g s sl : Nat) (v : Option String) : AppData :=
  { d with groups := updGroups g s sl v d.groups }

/-- Per-slot clearing step of the forEach loops in handleSlotClick and
handleSlotDrop: null the reference when it equals `mid`. -/
def clearFn (mid : String) (sl : Slot) : Slot :=
  if sl.memberId = some mid then { sl with memberId := none } else sl

/-- Clearing map on a squad. -/
def clearSquad (mid : String) (s : Squad) : Squad :=
  { s with slots := s.slots.map (clearFn mid) }

/-- Clearing map on a group. -/
def clearGroup (mid : String) (g : Group) : Group :=
  { g with squads := g.squads.map (clearSquad mid) }

/-- Null out every slot holding `mid`, document-wide: the embedding of the
clearing forEach loops in handleSlotClick / handleSlotDrop. -/
def clearMember (d : AppData) (mid : String) : AppData :=
  { d with groups := d.groups.map (clearGroup mid) }

/-- Number of slots in the document holding exactly `mid`. -/
def occ (mid : String) (l : List Slot) : Nat :=
  l.countP (fun sl => sl.memberId = some mid)

/-- Invariant I2: every member id occupies at most one slot document-wide. -/
def memberUnique (d : AppData) : Prop :=
  ∀ mid : String, occ mid (slotsOf d) ≤ 1

/- ===================== Mutating handlers ===================== -/

/-- Per-slot step of handlePoolUpdate: the embedding of the ternary
`slot.memberId && poolIds.has(slot.memberId) ? slot.memberId : null`. -/
def reconcileSlotFn (poolIds : List String) (slot : Slot) : Slot :=
  let keep : Bool := jsTruthy slot.memberId && decide (slot.memberId.getD "" ∈ poolIds)
  { slot with memberId := if keep then slot.memberId else none }

/-- Reconciling map on a squad. -/
def reconcileSquad (poolIds : List String) (s : Squad) : Squad :=
  { s with slots := s.slots.map (reconcileSlotFn poolIds) }

/-- Reconciling map on a group. -/
def reconcileGroup (poolIds : List String) (g : Group) : Group :=
  { g with squads := g.squads.map (reconcileSquad poolIds) }

/-- Embedding of handlePoolUpdate (src/index.tsx:1323): replace the pool
and null out every slot reference that is falsy or not an id of the new
pool; always persists.  The Bool component records the saveData call. -/
def handlePoolUpdate (newPool : List Member) (d : AppData) : AppData × Bool :=
  ({ d with groups := d.groups.map (reconcileGroup (newPool.map Member.id)),
            pool := newPool }, true)

/-- Embedding of handleStructureUpdate (src/index.tsx:1342). -/
def handleStructureUpdate (newData : AppData) (_d : AppData) : AppData × Bool :=
  (newData, true)

/-- Embedding of handleGameConfigUpdate (src/index.tsx:1347). -/
def handleGameConfigUpdate (newConfig : GameConfig) (d : AppData) : AppData × Bool :=
  ({ d with gameConfig := some newConfig }, true)

/-- Embedding of handleUpdateMemberSkill (src/index.tsx:1434). -/
def handleUpdateMemberSkill (updated : Member) (d : AppData) : AppData × Bool :=
  ({ d with pool := d.pool.map (fun m => if m.id = updated.id then updated else m) }, true)

/-- Embedding of handleSquadNameChange (src/index.tsx:1443): renames the
squad in memory.  Note that, unlike every other mutating handler, the
source never calls saveData here, so the Bool component is false. -/
def handleSquadNameChange (groupIdx squadIdx : Nat) (val : String) (d : AppData) : AppData × Bool :=
  let newGroups := modifyIdx (fun g =>
    let newSquads := modifyIdx (fun s => { s with name := val }) squadIdx g.squads
    { g with squads := newSquads }) groupIdx d.groups
  ({ d with groups := newGroups }, false)

/-- Clear-then-set placement used by the armed branch of handleSlotClick
and by sidebar drops: null every occurrence of `mid`, then write `mid`
into the target slot. -/
def placeMember (d : AppData) (g s sl : Nat) (mid : String) : AppData :=
  updSlot (clearMember d mid) g s sl (some mid)

/-- Embedding of handleSlotClick (src/index.tsx:1355).  Inputs: the
current selection (Armed state), the removal-confirmation answer, the
target indices, and the document.  Output: the new document, whether
saveData was called, and the new selection. -/
def handleSlotClick (sel : Option String) (confirmRemove : Bool)
    (g s sl : Nat) (d : AppData) : AppData × Bool × Option String :=
  if jsTruthy sel then
    (placeMember d g s sl (sel.getD ""), true, none)
  else
    match slotAt? d g s sl with
    | some slot =>
      if jsTruthy slot.memberId then
        if confirmRemove then (updSlot d g s sl none, true, sel) else (d, false, sel)
      else (d, false, sel)
    | none => (d, false, sel)

/-- Drag payload carried from dragStart to drop: either a sidebar member
or a source slot (handleSlotDragStart, src/index.tsx:1384). -/
inductive DragPayload where
  | sidebar (memberId : String)
  | slot (gIdx sIdx slotIdx : Nat) (memberId : String)
  deriving DecidableEq, Repr

/-- Embedding of handleSlotDrop (src/index.tsx:1389): reads the target
occupant, then either clears-and-places (sidebar payload) or swaps the
target occupant into the source slot (slot payload); always persists. -/
def handleSlotDrop (payload : DragPayload) (g s sl : Nat) (d : AppData) : AppData × Bool :=
  let targetMemberId := (slotAt? d g s sl).bind Slot.memberId
  match payload with
  | .sidebar mid => (placeMember d g s sl mid, true)
  | .slot sg ss ssl mid =>
      (updSlot (updSlot d g s sl (some mid)) sg ss ssl targetMemberId, true)

/- ===================== Batch import (handleBatchImport) ===================== -/

/-- Whitespace tokenization used by handleBatchImport: the maximal runs of
non-whitespace characters of a line, in order.  This is
`line.trim().split(/\s+/)` as far as the importer observes it: the two
agree on every line containing a non-whitespace character, and an
all-whitespace line yields fewer than two tokens either way, so it is
skipped by both. -/
def splitWsAux : List Char → List Char → List (List Char)
  | [], acc => if acc = [] then [] else [acc.reverse]
  | c :: cs, acc =>
      if c.isWhitespace then
        if acc = [] then splitWsAux cs [] else acc.reverse :: splitWsAux cs []
      else splitWsAux cs (c :: acc)

/-- Tokens of one batch-import line. -/
def tokens (line : String) : List String :=
  (splitWsAux line.toList []).map List.asString

/-- Accumulator state threaded through the batch-import loop: the working
pool, the two insertion-ordered skill sets, the configChanged flag, the
added-count and the fresh-id counter. -/
structure BatchState where
  pool : List Member
  ults : List String
  clans : List String
  configChanged : Bool
  added : Nat
  ctr : Nat
  deriving DecidableEq, Repr

/-- Skill-discovery phase of one batch-import line: append the ult and
clan values to the insertion-ordered sets when new and non-sentinel,
raising the configChanged flag. -/
def skillPhase (st : BatchState) (ult clan : String) : BatchState :=
  let st1 :=
    if ult ≠ "无" ∧ ult ∉ st.ults then
      { st with ults := st.ults ++ [ult], configChanged := true }
    else st
  if clan ≠ "无" ∧ clan ∉ st1.clans then
    { st1 with clans := st1.clans ++ [clan], configChanged := true }
  else st1

/-- Pool phase of one batch-import line: merge into the first member with
matching name (keeping its id, overwriting the note only when non-empty),
or append a fresh member and count it as added. -/
def poolPhase (gen : Nat → String) (st : BatchState)
    (name profession ult clan note : String) : BatchState :=
  match st.pool.findIdx? (fun m => m.name = name) with
  | some i =>
      let upd : Member → Member := fun old =>
        { old with profession := profession, ult := ult, clan := clan,
                   note := if note = "" then old.note else note }
      { st with pool := modifyIdx upd i st.pool }
  | none =>
      { st with
        pool := st.pool ++ [⟨gen st.ctr, name, profession, ult, clan, note⟩],
        added := st.added + 1, ctr := st.ctr + 1 }

/-- Processing of a single line of the batch import textarea
(the body of the forEach in handleBatchImport, src/index.tsx:449). -/
def processLine (gen : Nat → String) (st : BatchState) (line : String) : BatchState :=
  let parts := tokens line
  if parts.length ≥ 2 then
    poolPhase gen
      (skillPhase st (jsOr parts[2]? "无") (jsOr parts[3]? "无"))
      (parts.getD 0 "") (parts.getD 1 "") (jsOr parts[2]? "无")
      (jsOr parts[3]? "无") (jsOr parts[4]? "")
  else st

/-- Result of a batch import: the new pool, the config update passed to
onUpdateGameConfig when any new skill was discovered (none otherwise),
and the added-count reported to the operator. -/
structure BatchResult where
  pool : List Member
  configUpdate : Option GameConfig
  added : Nat
  deriving DecidableEq, Repr

/-- Available ultimate-skill catalog of the member editor modal:
`gameConfig?.ultSkills || DEFAULT_ULT_SKILLS`. -/
def availUlts (gameConfig : Option GameConfig) : List String :=
  match gameConfig with
  | some c => c.ultSkills
  | none => DEFAULT_ULT_SKILLS

/-- Available clan-skill catalog of the member editor modal. -/
def availClans (gameConfig : Option GameConfig) : List String :=
  match gameConfig with
  | some c => c.clanSkills
  | none => DEFAULT_CLAN_SKILLS

/-- Initial batch-import accumulator: the working pool and the deduped
available catalogs (the JavaScript `new Set(availableUlts)`). -/
def initBatch (gameConfig : Option GameConfig) (localPool : List Member) : BatchState :=
  { pool := localPool, ults := dedupList (availUlts gameConfig),
    clans := dedupList (availClans gameConfig), configChanged := false,
    added := 0, ctr := 0 }

/-- Embedding of handleBatchImport (src/index.tsx:440).  The available
catalogs fall back to the defaults when the config is absent, matching
`gameConfig?.ultSkills || DEFAULT_ULT_SKILLS`. -/
def handleBatchImport (gen : Nat → String) (gameConfig : Option GameConfig)
    (localPool : List Member) (lines : List String) : BatchResult :=
  let fin := lines.foldl (processLine gen) (initBatch gameConfig localPool)
  let cfgUpd :=
    if fin.configChanged then
      some { ultSkills := fin.ults, clanSkills := fin.clans,
             professionColors := gameConfig.bind GameConfig.professionColors }
    else none
  ⟨fin.pool, cfgUpd, fin.added⟩

/-- Effective skill catalogs after a batch import: the update when one was
issued, the previous catalogs otherwise. -/
def effectiveUlts (gameConfig : Option GameConfig) (r : BatchResult) : List String :=
  match r.configUpdate with
  | some c => c.ultSkills
  | none => availUlts gameConfig

/-- Effective clan catalog after a batch import. -/
def effectiveClans (gameConfig : Option GameConfig) (r : BatchResult) : List String :=
  match r.configUpdate with
  | some c => c.clanSkills
  | none => availClans gameConfig

/- ===================== JSON import (handleImportJSON) ===================== -/

/-- Shape of a field of the parsed import document that should hold an
array: either an array of well-typed values, a present non-array value,
or an absent (or otherwise falsy) value. -/
inductive JField (α : Type) where
  | arr (xs : List α)
  | notArr
  | missing
  deriving DecidableEq, Repr

/-- Parsed import document: the two validated fields plus the optional
game config carried along verbatim. -/
structure RawDoc where
  pool : JField Member
  groups : JField Group
  gameConfig : Option GameConfig := none
  deriving DecidableEq, Repr

/-- Outcome signalled to the operator by handleImportJSON. -/
inductive ImportOutcome where
  | success
  | invalidFormat
  | cancelled
  deriving DecidableEq, Repr

/-- Config synthesized by handleImportJSON for a document lacking
gameConfig: the default catalogs extended with every non-sentinel skill
found in the imported pool, plus the built-in colour map. -/
def synthesizeConfig (pool : List Member) : GameConfig :=
  let ults := pool.foldl (fun acc m => if m.ult ≠ "无" then insertNew acc m.ult else acc)
    (dedupList DEFAULT_ULT_SKILLS)
  let clans := pool.foldl (fun acc m => if m.clan ≠ "无" then insertNew acc m.clan else acc)
    (dedupList DEFAULT_CLAN_SKILLS)
  { ultSkills := ults, clanSkills := clans, professionColors := some CLASS_COLORS }

/-- Embedding of handleImportJSON (src/index.tsx:1282): minimal shape
validation, destructive-overwrite confirmation, config completion for
legacy documents, then wholesale replacement and persist. -/
def handleImportJSON (doc : RawDoc) (confirmOverwrite : Bool)
    (prev : AppData) : AppData × ImportOutcome :=
  match doc.pool, doc.groups with
  | .arr pool, .arr groups =>
      if confirmOverwrite then
        let cfg := match doc.gameConfig with
          | some c => some c
          | none => some (synthesizeConfig pool)
        (⟨pool, groups, cfg⟩, .success)
      else (prev, .cancelled)
  | _, _ => (prev, .invalidFormat)

/- ===================== Config save (GameConfigModal.handleSave) ===================== -/

/-- JavaScript-style newline split, keeping empty segments: the semantics
of `str.split(<newline>)`. -/
def splitLinesAux : List Char → List Char → List String
  | [], acc => [acc.reverse.asString]
  | c :: cs, acc =>
      if c = '\n' then acc.reverse.asString :: splitLinesAux cs []
      else splitLinesAux cs (c :: acc)

/-- Split a string on newline characters. -/
def splitLines (s : String) : List String :=
  splitLinesAux s.toList []

/-- JavaScript String.trim: drop leading and trailing whitespace. -/
def trimStr (s : String) : String :=
  (((s.toList.dropWhile Char.isWhitespace).reverse.dropWhile
    Char.isWhitespace).reverse).asString

/-- Embedding of GameConfigModal.handleSave (src/index.tsx:803): split the
two textareas on newlines, trim each line and drop the blanks, and
wholesale-replace the config.  No sentinel or usage validation occurs. -/
def gameConfigSave (ultStr clanStr : String) (profColors : List (String × String)) : GameConfig :=
  { ultSkills := ((splitLines ultStr).map trimStr).filter (· ≠ ""),
    clanSkills := ((splitLines clanStr).map trimStr).filter (· ≠ ""),
    professionColors := some profColors }

/- ===================== Derived views ===================== -/

/-- Total assigned count of the stats projection (src/index.tsx:1492):
the number of slots whose memberId is truthy, resolvable or not. -/
def statsCount (d : AppData) : Nat :=
  (slotsOf d).countP (fun sl => jsTruthy sl.memberId)

/-- Increment of the per-profession Record: bump an existing key in place
or append a fresh key with count 1 (insertion-ordered JS Record). -/
def bumpProf (l : List (String × Nat)) (k : String) : List (String × Nat) :=
  if l.any (fun p => p.1 = k) then
    l.map (fun p => if p.1 = k then (p.1, p.2 + 1) else p)
  else l ++ [(k, 1)]

/-- Per-profession assigned counts of the stats projection: only slots
whose truthy memberId resolves to a pool member contribute. -/
def statsProfCounts (d : AppData) : List (String × Nat) :=
  (slotsOf d).foldl (fun acc sl =>
    if jsTruthy sl.memberId then
      match d.pool.find? (fun x => x.id = sl.memberId.getD "") with
      | some m => bumpProf acc m.profession
      | none => acc
    else acc) []

/-- Sum of the per-profession counts. -/
def statsProfSum (d : AppData) : Nat :=
  ((statsProfCounts d).map Prod.snd).sum

/-- Embedding of the groupRows projection (src/index.tsx:1508): the
forEach loop threading the current row. -/
def groupRowsGo (current : List Group) : List Group → List (List Group)
  | [] => if current.isEmpty then [] else [current]
  | g :: rest =>
      if g.newLine ∧ ¬ current.isEmpty then
        current :: groupRowsGo [g] rest
      else groupRowsGo (current ++ [g]) rest

/-- Partition of the ordered group sequence into visual rows. -/
def groupRows (groups : List Group) : List (List Group) :=
  groupRowsGo [] groups

/- ===================== Placement-protocol sessions (C1) ===================== -/

/-- Placement operations of the claim: arming a member from the sidebar
(onSelectMember, src/index.tsx:1535), clicking a slot, and the two drop
kinds.  The click carries the removal-confirmation answer used by its
idle branch. -/
inductive PlacementOp where
  | select (memberId : String)
  | click (confirmRemove : Bool) (g s sl : Nat)
  | dropSidebar (memberId : String) (g s sl : Nat)
  | dropSlot (sg ss ssl : Nat) (memberId : String) (g s sl : Nat)
  deriving DecidableEq, Repr

/-- Session state: the document plus the Armed selection. -/
structure PState where
  data : AppData
  sel : Option String
  deriving DecidableEq, Repr

/-- One step of the placement protocol. -/
def applyOp (st : PState) : PlacementOp → PState
  | .select mid =>
      { st with sel := if st.sel = some mid then none else some mid }
  | .click confirm g s sl =>
      let r := handleSlotClick st.sel confirm g s sl st.data
      { data := r.1, sel := r.2.2 }
  | .dropSidebar mid g s sl =>
      { st with data := (handleSlotDrop (.sidebar mid) g s sl st.data).1 }
  | .dropSlot sg ss ssl mid g s sl =>
      { st with data := (handleSlotDrop (.slot sg ss ssl mid) g s sl st.data).1 }

/-- Run a sequence of placement operations. -/
def applyOps (st : PState) (ops : List PlacementOp) : PState :=
  ops.foldl applyOp st

/-- Validity of a triple of slot indices in a document, as a Bool. -/
def validIdx (d : AppData) (g s sl : Nat) : Bool :=
  match slotAt? d g s sl with
  | some _ => true
  | none => false

/-- Admissibility of one operation in a state, matching the claim: clicks
happen with an armed member on a valid target, sidebar drops target a
valid slot, and slot drops carry a payload memberId equal to the source
slot occupant, with both ends valid. -/
def okOp (st : PState) : PlacementOp → Bool
  | .select _ => true
  | .click _ g s sl => jsTruthy st.sel && validIdx st.data g s sl
  | .dropSidebar _ g s sl => validIdx st.data g s sl
  | .dropSlot sg ss ssl mid g s sl =>
      validIdx st.data g s sl && validIdx st.data sg ss ssl &&
        decide ((slotAt? st.data sg ss ssl).bind Slot.memberId = some mid)

/-- Admissibility of a whole operation sequence, each operation judged in
the state where it runs. -/
def okOps (st : PState) : List PlacementOp → Bool
  | [] => true
  | op :: ops => okOp st op && okOps (applyOp st op) ops

/- ===================== Concrete documents for witnesses ===================== -/

/-- Concrete document with two members placed in the first two of three
slots of a single squad. -/
def docAB : AppData :=
  ⟨[⟨"m1", "甲", "素问", "无", "无", ""⟩, ⟨"m2", "乙", "潮光", "无", "无", ""⟩],
   [⟨"g1", "主力团", some "进攻(红)", none, none, false,
     [⟨"s1", "一队",
       [⟨"sl1", some "m1", ""⟩, ⟨"sl2", some "m2", ""⟩, ⟨"sl3", none, ""⟩]⟩]⟩],
   none⟩

/-- Concrete document in which member m1 illegally occupies two slots. -/
def docDup : AppData :=
  ⟨[⟨"m1", "甲", "素问", "无", "无", ""⟩],
   [⟨"g1", "主力团", some "进攻(红)", none, none, false,
     [⟨"s1", "一队", [⟨"sl1", some "m1", ""⟩, ⟨"sl2", some "m1", ""⟩]⟩]⟩],
   none⟩

/-- Concrete document whose single occupied slot holds the empty-string
member id (reachable through JSON import, whose member ids are arbitrary
strings). -/
def docEmptyId : AppData :=
  ⟨[⟨"", "空", "素问", "无", "无", ""⟩],
   [⟨"g1", "主力团", some "进攻(红)", none, none, false,
     [⟨"s1", "一队", [⟨"sl1", some "", ""⟩]⟩]⟩],
   none⟩

/-- Concrete document with a dangling slot reference: the slot holds the
id m9 which no pool member carries. -/
def docDangling : AppData :=
  ⟨[⟨"m1", "甲", "素问", "无", "无", ""⟩],
   [⟨"g1", "主力团", some "进攻(红)", none, none, false,
     [⟨"s1", "一队", [⟨"sl1", some "m9", ""⟩, ⟨"sl2", some "m1", ""⟩]⟩]⟩],
   none⟩

/- ===================== Primitive list lemmas ===================== -/

theorem modifyIdx_length (f : α → α) (n : Nat) (l : List α) :
    (modifyIdx f n l).length = l.length := by
  induction l generalizing n with
  | nil => cases n <;> rfl
  | cons a as ih =>
    cases n with
    | zero => rfl
    | succ m => simp [modifyIdx, ih]

theorem modifyIdx_get?_eq (f : α → α) (n : Nat) (l : List α) :
    (modifyIdx f n l)[n]? = l[n]?.map f := by
  induction l generalizing n with
  | nil => simp [modifyIdx]
  | cons a as ih =>
    cases n with
    | zero => simp [modifyIdx]
    | succ m => simpa [modifyIdx] using ih m

theorem modifyIdx_get?_ne (f : α → α) {n m : Nat} (h : m ≠ n) (l : List α) :
    (modifyIdx f n l)[m]? = l[m]? := by
  induction l generalizing n m with
  | nil => simp [modifyIdx]
  | cons a as ih =>
    cases n with
    | zero =>
      cases m with
      | zero => exact absurd rfl h
      | succ k => simp [modifyIdx]
    | succ j =>
      cases m with
      | zero => simp [modifyIdx]
      | succ k =>
        simpa [modifyIdx] using ih (fun hk => h (by simp [hk]))

theorem modifyIdx_comp (f g : α → α) (n : Nat) (l : List α) :
    modifyIdx f n (modifyIdx g n l) = modifyIdx (fun x => f (g x)) n l := by
  induction l generalizing n with
  | nil => cases n <;> rfl
  | cons a as ih =>
    cases n with
    | zero => rfl
    | succ m => simp [modifyIdx, ih]

theorem modifyIdx_comm (f g : α → α) {n m : Nat} (h : n ≠ m) (l : List α) :
    modifyIdx f n (modifyIdx g m l) = modifyIdx g m (modifyIdx f n l) := by
  induction l generalizing n m with
  | nil => cases n <;> cases m <;> rfl
  | cons a as ih =>
    cases n with
    | zero =>
      cases m with
      | zero => exact absurd rfl h
      | succ k => simp [modifyIdx]
    | succ j =>
      cases m with
      | zero => simp [modifyIdx]
      | succ k =>
        simp only [modifyIdx, List.cons.injEq, true_and]
        exact ih (fun hk => h (by simp [hk]))

theorem modifyIdx_congr_at {f g : α → α} {n : Nat} {l : List α}
    (h : ∀ x, l[n]? = some x → f x = g x) :
    modifyIdx f n l = modifyIdx g n l := by
  induction l generalizing n with
  | nil => cases n <;> rfl
  | cons a as ih =>
    cases n with
    | zero =>
      have := h a (by simp)
      simp [modifyIdx, this]
    | succ m =>
      simp only [modifyIdx, List.cons.injEq, true_and]
      exact ih (fun x hx => h x (by simpa using hx))

theorem modifyIdx_fix {f : α → α} {n : Nat} {l : List α}
    (h : ∀ x, l[n]? = some x → f x = x) :
    modifyIdx f n l = l := by
  induction l generalizing n with
  | nil => cases n <;> rfl
  | cons a as ih =>
    cases n with
    | zero =>
      have := h a (by simp)
      simp [modifyIdx, this]
    | succ m =>
      simp only [modifyIdx, List.cons.injEq, true_and]
      exact ih (fun x hx => h x (by simpa using hx))

theorem map_id_of {f : α → α} {l : List α} (h : ∀ x ∈ l, f x = x) :
    l.map f = l := by
  induction l with
  | nil => rfl
  | cons a as ih =>
    simp only [List.map_cons, h a (by simp), List.cons.injEq, true_and]
    exact ih (fun x hx => h x (by simp [hx]))

theorem map_eq_modifyIdx {f : α → α} {n : Nat} {l : List α}
    (h : ∀ i x, l[i]? = some x → i ≠ n → f x = x) :
    l.map f = modifyIdx f n l := by
  induction l generalizing n with
  | nil => cases n <;> rfl
  | cons a as ih =>
    cases n with
    | zero =>
      simp only [List.map_cons, modifyIdx, List.cons.injEq, true_and]
      exact map_id_of (fun x hx => by
        obtain ⟨i, hi⟩ := List.get_of_mem hx
        exact h (i + 1) x (by simp [← hi]) (by simp))
    | succ m =>
      simp only [List.map_cons, modifyIdx, List.cons.injEq]
      refine ⟨h 0 a (by simp) (by simp), ?_⟩
      exact ih (fun i x hx hi => h (i + 1) x (by simpa using hx) (by simpa using hi))

/- ===================== Slot addressing lemmas ===================== -/

theorem slotAt?_mk {d : AppData} {g s sl : Nat} {grp : Group} {sq : Squad}
    (hg : d.groups[g]? = some grp) (hs : grp.squads[s]? = some sq) :
    slotAt? d g s sl = sq.slots[sl]? := by
  simp [slotAt?, hg, hs]

theorem slotAt?_decomp {d : AppData} {g s sl : Nat} {slot0 : Slot}
    (h : slotAt? d g s sl = some slot0) :
    ∃ grp sq, d.groups[g]? = some grp ∧ grp.squads[s]? = some sq ∧
      sq.slots[sl]? = some slot0 := by
  unfold slotAt? at h
  rcases hg : d.groups[g]? with _ | grp
  · rw [hg] at h; exact absurd h (by simp)
  · rw [hg] at h
    replace h : (match grp.squads[s]? with
      | none => none
      | some sq => sq.slots[sl]?) = some slot0 := h
    rcases hs : grp.squads[s]? with _ | sq
    · rw [hs] at h; exact absurd h (by simp)
    · rw [hs] at h
      exact ⟨grp, sq, rfl, hs, h⟩

theorem slotAt?_mem {d : AppData} {g s sl : Nat} {slot0 : Slot}
    (h : slotAt? d g s sl = some slot0) : slot0 ∈ slotsOf d := by
  obtain ⟨grp, sq, hg, hs, hsl⟩ := slotAt?_decomp h
  have hgm : grp ∈ d.groups := List.getElem?_mem hg
  have hsm : sq ∈ grp.squads := List.getElem?_mem hs
  have hslm : slot0 ∈ sq.slots := List.getElem?_mem hsl
  simp only [slotsOf, List.mem_flatten, List.mem_map]
  exact ⟨groupSlots grp, ⟨grp, hgm, rfl⟩, by
    simp only [groupSlots, List.mem_flatten, List.mem_map]
    exact ⟨sq.slots, ⟨sq, hsm, rfl⟩, hslm⟩⟩

theorem slotAt?_updSlot_same {d : AppData} {g s sl : Nat} {slot0 : Slot}
    (h : slotAt? d g s sl = some slot0) (v : Option String) :
    slotAt? (updSlot d g s sl v) g s sl = some (setMemberId v slot0) := by
  obtain ⟨grp, sq, hg, hs, hsl⟩ := slotAt?_decomp h
  have hg' : (updSlot d g s sl v).groups[g]? =
      some { grp with squads := updSquads s sl v grp.squads } := by
    simp [updSlot, updGroups, modifyIdx_get?_eq, hg]
  have hs' : (updSquads s sl v grp.squads)[s]? =
      some { sq with slots := updSlots sl v sq.slots } := by
    simp [updSquads, modifyIdx_get?_eq, hs]
  rw [slotAt?_mk hg' hs']
  simp [updSlots, modifyIdx_get?_eq, hsl]

theorem slotAt?_updSlot_ne {g s sl g' s' sl' : Nat}
    (hne : (g, s, sl) ≠ (g', s', sl')) (d : AppData) (v : Option String) :
    slotAt? (updSlot d g s sl v) g' s' sl' = slotAt? d g' s' sl' := by
  by_cases hgg : g = g'
  · subst hgg
    cases hg : d.groups[g]? with
    | none =>
      have hup : (updSlot d g s sl v).groups[g]? = none := by
        simp [updSlot, updGroups, modifyIdx_get?_eq, hg]
      simp [slotAt?, hup, hg]
    | some grp =>
      have hg' : (updSlot d g s sl v).groups[g]? =
          some { grp with squads := updSquads s sl v grp.squads } := by
        simp [updSlot, updGroups, modifyIdx_get?_eq, hg]
      by_cases hss : s = s'
      · subst hss
        cases hs : grp.squads[s]? with
        | none =>
          have hs' : (updSquads s sl v grp.squads)[s]? = none := by
            simp [updSquads, modifyIdx_get?_eq, hs]
          simp [slotAt?, hg, hg', hs, hs']
        | some sq =>
          have hsl' : sl' ≠ sl := by
            intro hc
            exact hne (by rw [hc])
          have hs' : (updSquads s sl v grp.squads)[s]? =
              some { sq with slots := updSlots sl v sq.slots } := by
            simp [updSquads, modifyIdx_get?_eq, hs]
          rw [slotAt?_mk hg' hs', slotAt?_mk hg hs]
          simp only [updSlots]
          exact modifyIdx_get?_ne _ hsl' sq.slots
      · have hs' : (updSquads s sl v grp.squads)[s']? = grp.squads[s']? :=
          modifyIdx_get?_ne _ (fun hc => hss hc.symm) _
        simp [slotAt?, hg, hg', hs']
  · have hup : (updSlot d g s sl v).groups[g']? = d.groups[g']? := by
      simpa [updSlot, updGroups] using
        modifyIdx_get?_ne (fun grp => { grp with squads := updSquads s sl v grp.squads })
          (fun hc => hgg hc.symm) d.groups
    simp [slotAt?, hup]

/- ===================== Update algebra ===================== -/

theorem modifyIdx_congr {f g : α → α} (h : ∀ x, f x = g x) (n : Nat) (l : List α) :
    modifyIdx f n l = modifyIdx g n l := by
  have : f = g := funext h
  rw [this]

theorem updSlots_updSlots_same (sl : Nat) (v w : Option String) (slots : List Slot) :
    updSlots sl w (updSlots sl v slots) = updSlots sl w slots := by
  unfold updSlots
  rw [modifyIdx_comp]
  exact modifyIdx_congr (fun x => rfl) sl slots

theorem updSquads_updSquads_same (s sl : Nat) (v w : Option String) (squads : List Squad) :
    updSquads s sl w (updSquads s sl v squads) = updSquads s sl w squads := by
  unfold updSquads
  rw [modifyIdx_comp]
  exact modifyIdx_congr (fun sq => by simp [updSlots_updSlots_same]) s squads

theorem updGroups_updGroups_same (g s sl : Nat) (v w : Option String)
    (groups : List Group) :
    updGroups g s sl w (updGroups g s sl v groups) = updGroups g s sl w groups := by
  unfold updGroups
  rw [modifyIdx_comp]
  exact modifyIdx_congr (fun grp => by simp [updSquads_updSquads_same]) g groups

theorem updSlot_updSlot_same (d : AppData) (g s sl : Nat) (v w : Option String) :
    updSlot (updSlot d g s sl v) g s sl w = updSlot d g s sl w := by
  show ({ d with groups := updGroups g s sl w (updGroups g s sl v d.groups) } : AppData) =
    { d with groups := updGroups g s sl w d.groups }
  rw [updGroups_updGroups_same]

theorem updSlots_comm {sl sl' : Nat} (h : sl ≠ sl') (v w : Option String)
    (slots : List Slot) :
    updSlots sl' w (updSlots sl v slots) = updSlots sl v (updSlots sl' w slots) := by
  unfold updSlots
  exact modifyIdx_comm _ _ (fun hc => h hc.symm) slots

theorem updSquads_comm {s sl s' sl' : Nat} (h : (s, sl) ≠ (s', sl'))
    (v w : Option String) (squads : List Squad) :
    updSquads s' sl' w (updSquads s sl v squads) =
      updSquads s sl v (updSquads s' sl' w squads) := by
  by_cases hs : s = s'
  · subst hs
    have hsl : sl ≠ sl' := fun hc => h (by simp [hc])
    unfold updSquads
    rw [modifyIdx_comp, modifyIdx_comp]
    exact modifyIdx_congr (fun sq => by simp [updSlots_comm hsl]) s squads
  · unfold updSquads
    exact modifyIdx_comm _ _ (fun hc => hs hc.symm) squads

theorem updGroups_comm {g s sl g' s' sl' : Nat} (h : (g, s, sl) ≠ (g', s', sl'))
    (v w : Option String) (groups : List Group) :
    updGroups g' s' sl' w (updGroups g s sl v groups) =
      updGroups g s sl v (updGroups g' s' sl' w groups) := by
  by_cases hg : g = g'
  · subst hg
    have hss : (s, sl) ≠ (s', sl') := fun hc => h (congrArg (Prod.mk g) hc)
    unfold updGroups
    rw [modifyIdx_comp, modifyIdx_comp]
    exact modifyIdx_congr (fun grp => by simp [updSquads_comm hss]) g groups
  · unfold updGroups
    exact modifyIdx_comm _ _ (fun hc => hg hc.symm) groups

theorem updSlot_comm {g s sl g' s' sl' : Nat} (h : (g, s, sl) ≠ (g', s', sl'))
    (d : AppData) (v w : Option String) :
    updSlot (updSlot d g s sl v) g' s' sl' w =
      updSlot (updSlot d g' s' sl' w) g s sl v := by
  show ({ d with groups := updGroups g' s' sl' w (updGroups g s sl v d.groups) } : AppData)
      = { d with groups := updGroups g s sl v (updGroups g' s' sl' w d.groups) }
  rw [updGroups_comm h]

theorem updSlot_self {d : AppData} {g s sl : Nat} {slot0 : Slot} {v : Option String}
    (h : slotAt? d g s sl = some slot0) (hv : slot0.memberId = v) :
    updSlot d g s sl v = d := by
  obtain ⟨grp, sq, hg, hs, hsl⟩ := slotAt?_decomp h
  have hslot : setMemberId v slot0 = slot0 := by
    cases slot0
    simp only [setMemberId] at *
    simp [← hv]
  have h1 : updSlots sl v sq.slots = sq.slots := by
    unfold updSlots
    exact modifyIdx_fix (fun x hx => by
      rw [hsl] at hx
      cases hx
      exact hslot)
  have h2 : updSquads s sl v grp.squads = grp.squads := by
    unfold updSquads
    exact modifyIdx_fix (fun x hx => by
      rw [hs] at hx
      cases hx
      simp [h1])
  have h3 : updGroups g s sl v d.groups = d.groups := by
    unfold updGroups
    exact modifyIdx_fix (fun x hx => by
      rw [hg] at hx
      cases hx
      simp [h2])
  show ({ d with groups := updGroups g s sl v d.groups } : AppData) = d
  simp [h3]

/- ===================== Counting lemmas ===================== -/

theorem countP_modifyIdx {p : α → Bool} {F : α → α} {n : Nat} {l : List α} {x : α}
    (h : l[n]? = some x) :
    (modifyIdx F n l).countP p + (if p x then 1 else 0)
      = l.countP p + (if p (F x) then 1 else 0) := by
  induction l generalizing n with
  | nil => simp at h
  | cons a as ih =>
    cases n with
    | zero =>
      simp only [List.getElem?_cons_zero, Option.some.injEq] at h
      subst h
      simp only [modifyIdx, List.countP_cons]
      omega
    | succ m =>
      have := ih (n := m) (by simpa using h)
      simp only [modifyIdx, List.countP_cons]
      omega

theorem countP_flatten_map_modifyIdx {h : β → List α} {F : β → β} {p : α → Bool}
    {n : Nat} {L : List β} {x : β} (hget : L[n]? = some x) :
    (((modifyIdx F n L).map h).flatten).countP p + ((h x).countP p)
      = ((L.map h).flatten).countP p + ((h (F x)).countP p) := by
  induction L generalizing n with
  | nil => simp at hget
  | cons b bs ih =>
    cases n with
    | zero =>
      simp only [List.getElem?_cons_zero, Option.some.injEq] at hget
      subst hget
      simp only [modifyIdx, List.map_cons, List.flatten_cons, List.countP_append]
      omega
    | succ m =>
      have := ih (n := m) (by simpa using hget)
      simp only [modifyIdx, List.map_cons, List.flatten_cons, List.countP_append]
      omega

theorem occ_updSlot {d : AppData} {g s sl : Nat} {slot0 : Slot}
    (h : slotAt? d g s sl = some slot0) (v : Option String) (x : String) :
    occ x (slotsOf (updSlot d g s sl v)) + (if slot0.memberId = some x then 1 else 0)
      = occ x (slotsOf d) + (if v = some x then 1 else 0) := by
  obtain ⟨grp, sq, hg, hs, hsl⟩ := slotAt?_decomp h
  have h1 := countP_modifyIdx (p := fun q : Slot => q.memberId = some x)
    (F := setMemberId v) hsl
  have h2 := countP_flatten_map_modifyIdx (h := Squad.slots)
    (F := fun q : Squad => { q with slots := updSlots sl v q.slots })
    (p := fun q : Slot => q.memberId = some x) hs
  have h3 := countP_flatten_map_modifyIdx (h := groupSlots)
    (F := fun grp : Group => { grp with squads := updSquads s sl v grp.squads })
    (p := fun q : Slot => q.memberId = some x) hg
  simp only [occ, slotsOf, updSlot, updGroups, updSquads, updSlots, setMemberId,
    groupSlots, decide_eq_true_eq] at h1 h2 h3 ⊢
  split_ifs at h1 ⊢ <;> omega

/- ===================== Clearing lemmas ===================== -/

theorem clearFn_memberId_ne (mid : String) (q : Slot) :
    (clearFn mid q).memberId ≠ some mid := by
  unfold clearFn
  split <;> simp_all

theorem groupSlots_clearGroup (mid : String) (g : Group) :
    groupSlots (clearGroup mid g) = (groupSlots g).map (clearFn mid) := by
  simp only [groupSlots, clearGroup, List.map_map, List.map_flatten]
  rw [show Squad.slots ∘ clearSquad mid = List.map (clearFn mid) ∘ Squad.slots from
    funext fun sq => rfl]

theorem slotsOf_clearMember (d : AppData) (mid : String) :
    slotsOf (clearMember d mid) = (slotsOf d).map (clearFn mid) := by
  simp only [slotsOf, clearMember, List.map_map, List.map_flatten]
  rw [show groupSlots ∘ clearGroup mid = List.map (clearFn mid) ∘ groupSlots from
    funext fun g => groupSlots_clearGroup mid g]

theorem slotAt?_clearMember (d : AppData) (mid : String) (g s sl : Nat) :
    slotAt? (clearMember d mid) g s sl = (slotAt? d g s sl).map (clearFn mid) := by
  unfold slotAt?
  have hg : (clearMember d mid).groups[g]? = (d.groups[g]?).map (clearGroup mid) := by
    simp [clearMember]
  rw [hg]
  cases d.groups[g]? with
  | none => rfl
  | some grp =>
    show (match (clearGroup mid grp).squads[s]? with
      | none => none
      | some sq => sq.slots[sl]?) =
      Option.map (clearFn mid) (match grp.squads[s]? with
        | none => none
        | some sq => sq.slots[sl]?)
    have hs : (clearGroup mid grp).squads[s]? = (grp.squads[s]?).map (clearSquad mid) := by
      simp [clearGroup]
    rw [hs]
    cases grp.squads[s]? with
    | none => rfl
    | some sq =>
      show (clearSquad mid sq).slots[sl]? = Option.map (clearFn mid) sq.slots[sl]?
      simp [clearSquad]

theorem occ_map_clear_self (mid : String) (l : List Slot) :
    occ mid (l.map (clearFn mid)) = 0 := by
  simp only [occ, List.countP_map]
  rw [List.countP_eq_zero]
  intro q _
  simpa using clearFn_memberId_ne mid q

theorem occ_map_clear_other {x mid : String} (h : x ≠ mid) (l : List Slot) :
    occ x (l.map (clearFn mid)) = occ x l := by
  have hmx : mid ≠ x := fun hc => h hc.symm
  simp only [occ, List.countP_map]
  apply List.countP_congr
  intro q _
  simp only [Function.comp_apply]
  unfold clearFn
  split
  · rename_i hq
    rw [hq]
    simp [hmx]
  · rfl

/- ===================== Placement preservation ===================== -/

theorem occ_place_self {d : AppData} {g s sl : Nat} {slot0 : Slot}
    (h : slotAt? d g s sl = some slot0) (mid : String) :
    occ mid (slotsOf (placeMember d g s sl mid)) = 1 := by
  have hc : slotAt? (clearMember d mid) g s sl = some (clearFn mid slot0) := by
    rw [slotAt?_clearMember, h]
    rfl
  have he := occ_updSlot hc (some mid) mid
  have h0 : occ mid (slotsOf (clearMember d mid)) = 0 := by
    rw [slotsOf_clearMember]
    exact occ_map_clear_self mid _
  have hne : ¬ ((clearFn mid slot0).memberId = some mid) := clearFn_memberId_ne mid slot0
  unfold placeMember
  simp [h0, hne] at he
  exact he

theorem occ_place_other {d : AppData} {g s sl : Nat} {slot0 : Slot}
    (h : slotAt? d g s sl = some slot0) {mid x : String} (hx : x ≠ mid) :
    occ x (slotsOf (placeMember d g s sl mid)) ≤ occ x (slotsOf d) := by
  have hc : slotAt? (clearMember d mid) g s sl = some (clearFn mid slot0) := by
    rw [slotAt?_clearMember, h]
    rfl
  have he := occ_updSlot hc (some mid) x
  have h0 : occ x (slotsOf (clearMember d mid)) = occ x (slotsOf d) := by
    rw [slotsOf_clearMember]
    exact occ_map_clear_other hx _
  have hmx : mid ≠ x := fun hc => hx hc.symm
  rw [h0] at he
  unfold placeMember
  by_cases hcc : (clearFn mid slot0).memberId = some x
  · simp only [hcc, if_pos rfl] at he
    simp [hmx] at he
    omega
  · simp [hcc, hmx] at he
    omega

theorem memberUnique_place {d : AppData} {g s sl : Nat} {slot0 : Slot}
    (h : slotAt? d g s sl = some slot0) (hu : memberUnique d) (mid : String) :
    memberUnique (placeMember d g s sl mid) := by
  intro x
  by_cases hx : x = mid
  · subst hx
    rw [occ_place_self h]
  · exact le_trans (occ_place_other h hx) (hu x)

theorem occ_swap {d : AppData} {g s sl sg ss ssl : Nat} {t0 s0 : Slot} {mid : String}
    (ht : slotAt? d g s sl = some t0) (hs : slotAt? d sg ss ssl = some s0)
    (hpay : s0.memberId = some mid) (x : String) :
    occ x (slotsOf (updSlot (updSlot d g s sl (some mid)) sg ss ssl t0.memberId))
      = occ x (slotsOf d) := by
  have e1 := occ_updSlot ht (some mid) x
  have hs1 : ∃ s1 : Slot,
      slotAt? (updSlot d g s sl (some mid)) sg ss ssl = some s1 ∧
        s1.memberId = some mid := by
    by_cases htr : (g, s, sl) = (sg, ss, ssl)
    · rw [Prod.mk.injEq, Prod.mk.injEq] at htr
      obtain ⟨h1, h2, h3⟩ := htr
      subst h1; subst h2; subst h3
      exact ⟨setMemberId (some mid) t0, slotAt?_updSlot_same ht (some mid), rfl⟩
    · refine ⟨s0, ?_, hpay⟩
      rw [slotAt?_updSlot_ne htr d (some mid)]
      exact hs
  obtain ⟨s1, hs1at, hs1mem⟩ := hs1
  have e2 := occ_updSlot hs1at t0.memberId x
  rw [hs1mem] at e2
  omega

/- ===================== Session-level preservation (C1 machinery) ===================== -/

theorem validIdx_some {d : AppData} {g s sl : Nat} (h : validIdx d g s sl = true) :
    ∃ slot0, slotAt? d g s sl = some slot0 := by
  unfold validIdx at h
  cases hq : slotAt? d g s sl with
  | none => rw [hq] at h; simp at h
  | some q => exact ⟨q, rfl⟩

theorem memberUnique_applyOp {st : PState} {op : PlacementOp}
    (hu : memberUnique st.data) (hok : okOp st op = true) :
    memberUnique (applyOp st op).data := by
  cases op with
  | select mid => exact hu
  | click confirm g s sl =>
    simp only [okOp, Bool.and_eq_true] at hok
    obtain ⟨harm, hval⟩ := hok
    obtain ⟨slot0, hslot⟩ := validIdx_some hval
    simp only [applyOp, handleSlotClick, harm, if_pos]
    exact memberUnique_place hslot hu _
  | dropSidebar mid g s sl =>
    simp only [okOp] at hok
    obtain ⟨slot0, hslot⟩ := validIdx_some hok
    simp only [applyOp, handleSlotDrop]
    exact memberUnique_place hslot hu mid
  | dropSlot sg ss ssl mid g s sl =>
    simp only [okOp, Bool.and_eq_true, decide_eq_true_eq] at hok
    obtain ⟨⟨hvt, hvs⟩, hpay⟩ := hok
    obtain ⟨t0, ht0⟩ := validIdx_some hvt
    obtain ⟨s0, hs0⟩ := validIdx_some hvs
    have hp : s0.memberId = some mid := by
      rw [hs0] at hpay
      simpa using hpay
    intro x
    simp only [applyOp, handleSlotDrop]
    have htv : (slotAt? st.data g s sl).bind Slot.memberId = t0.memberId := by
      rw [ht0]; rfl
    rw [htv]
    rw [occ_swap ht0 hs0 hp x]
    exact hu x

theorem memberUnique_applyOps {st : PState} {ops : List PlacementOp}
    (hu : memberUnique st.data) (hok : okOps st ops = true) :
    memberUnique (applyOps st ops).data := by
  induction ops generalizing st with
  | nil => exact hu
  | cons op ops ih =>
    simp only [okOps, Bool.and_eq_true] at hok
    exact ih (memberUnique_applyOp hu hok.1) hok.2

theorem okOps_take {st : PState} {ops : List PlacementOp}
    (hok : okOps st ops = true) (n : Nat) : okOps st (ops.take n) = true := by
  induction ops generalizing st n with
  | nil => simp [okOps]
  | cons op ops ih =>
    cases n with
    | zero => simp [okOps]
    | succ m =>
      simp only [okOps, Bool.and_eq_true] at hok
      simp only [List.take_succ_cons, okOps, Bool.and_eq_true]
      exact ⟨hok.1, ih hok.2 m⟩

/- ===================== Uniqueness from concrete data ===================== -/

theorem countP_eq_count_filterMap (mid : String) (l : List Slot) :
    l.countP (fun sl => sl.memberId = some mid)
      = (l.filterMap Slot.memberId).count mid := by
  induction l with
  | nil => rfl
  | cons a as ih =>
    cases hm : a.memberId with
    | none =>
      rw [List.countP_cons, List.filterMap_cons]
      simp [hm, ih]
    | some y =>
      rw [List.countP_cons, List.filterMap_cons]
      simp only [hm, List.count_cons, ih, Option.some.injEq]
      by_cases hy : y = mid
      · simp [hy]
      · simp [hy, fun hc : mid = y => hy hc.symm]

theorem memberUnique_of_nodup {d : AppData}
    (h : ((slotsOf d).filterMap Slot.memberId).Nodup) : memberUnique d := by
  intro mid
  rw [occ, countP_eq_count_filterMap]
  exact List.nodup_iff_count_le_one.1 h mid

/-- C1: for every sequence of placement operations (selectMember, clickSlot
with an armed member, drop of a sidebar payload, drop of a slot payload
whose memberId matches the source slot occupant) starting from a state in
which every Member.id occurs in at most one Slot, the state after each
operation of the sequence still has every Member.id occurring in at most
one Slot across all groups, squads and slots. -/
theorem C1_placement_preserves_uniqueness (st : PState) (ops : List PlacementOp)
    (hu : memberUnique st.data) (hok : okOps st ops = true) (n : Nat) :
    memberUnique (applyOps st (ops.take n)).data :=
  memberUnique_applyOps hu (okOps_take hok n)

/-- Witness for C1: a concrete two-slot document, with a four-operation
session (arm, click, sidebar drop, slot drop) whose intermediate states
all keep every member in at most one slot. -/
theorem C1_placement_preserves_uniqueness_witness :
    memberUnique (applyOps
      ⟨⟨[⟨"m1", "甲", "素问", "无", "无", ""⟩, ⟨"m2", "乙", "潮光", "无", "无", ""⟩],
        [⟨"g1", "主力团", some "进攻(红)", none, none, false,
          [⟨"s1", "一队", [⟨"sl1", some "m1", ""⟩, ⟨"sl2", some "m2", ""⟩]⟩]⟩],
        none⟩, none⟩
      ([PlacementOp.select "m1", PlacementOp.click false 0 0 1,
        PlacementOp.dropSidebar "m2" 0 0 0,
        PlacementOp.dropSlot 0 0 0 "m2" 0 0 1].take 4)).data := by
  apply C1_placement_preserves_uniqueness _ _ _ (by decide) 4
  apply memberUnique_of_nodup
  decide

/- ===================== Swap lemmas (C3) ===================== -/

theorem setMemberId_self {q : Slot} {v : Option String} (h : q.memberId = v) :
    setMemberId v q = q := by
  cases q
  simp only [setMemberId] at *
  simp_all

theorem handleSlotDrop_slot_eq (d : AppData) (sg ss ssl g s sl : Nat) (mid : String) :
    (handleSlotDrop (.slot sg ss ssl mid) g s sl d).1 =
      updSlot (updSlot d g s sl (some mid)) sg ss ssl
        ((slotAt? d g s sl).bind Slot.memberId) := rfl

theorem dropSlot_self {d : AppData} {g s sl : Nat} {t0 : Slot}
    (h : slotAt? d g s sl = some t0) (mid : String) :
    (handleSlotDrop (.slot g s sl mid) g s sl d).1 = d := by
  rw [handleSlotDrop_slot_eq, h]
  show updSlot (updSlot d g s sl (some mid)) g s sl t0.memberId = d
  rw [updSlot_updSlot_same]
  exact updSlot_self h rfl

/-- C3: a slot-type drop with payload memberId m from source slot A onto
target slot B (prior occupant n, possibly null) leaves B holding m with
its other fields intact, A holding n with its other fields intact, and
every other slot unchanged; the inverse drop (B as source, payload m,
target A) restores the document exactly; and a slot-type drop onto its
own source slot leaves the document unchanged. -/
theorem C3_slot_drop_swap (d : AppData) (gA sA slA gB sB slB : Nat) (m : String)
    (a0 b0 : Slot)
    (hA : slotAt? d gA sA slA = some a0) (hm : a0.memberId = some m)
    (hB : slotAt? d gB sB slB = some b0)
    (d1 : AppData) (hd1 : d1 = (handleSlotDrop (.slot gA sA slA m) gB sB slB d).1) :
    slotAt? d1 gB sB slB = some (setMemberId (some m) b0) ∧
    slotAt? d1 gA sA slA = some (setMemberId b0.memberId a0) ∧
    (∀ g s sl, (g, s, sl) ≠ (gA, sA, slA) → (g, s, sl) ≠ (gB, sB, slB) →
      slotAt? d1 g s sl = slotAt? d g s sl) ∧
    (handleSlotDrop (.slot gB sB slB m) gA sA slA d1).1 = d ∧
    (handleSlotDrop (.slot gA sA slA m) gA sA slA d).1 = d := by
  have htv : (slotAt? d gB sB slB).bind Slot.memberId = b0.memberId := by
    rw [hB]
    rfl
  by_cases htr : (gA, sA, slA) = (gB, sB, slB)
  · rw [Prod.mk.injEq, Prod.mk.injEq] at htr
    obtain ⟨h1, h2, h3⟩ := htr
    subst h1; subst h2; subst h3
    have hab : a0 = b0 := by
      rw [hA] at hB
      exact Option.some.inj hB
    subst hab
    have hself : (handleSlotDrop (.slot gA sA slA m) gA sA slA d).1 = d :=
      dropSlot_self hA m
    rw [hd1, hself]
    refine ⟨?_, ?_, fun g s sl hne _ => rfl, dropSlot_self hA m, rfl⟩
    · rw [setMemberId_self hm]
      exact hA
    · rw [setMemberId_self rfl]
      exact hA
  · have htrBA : (gB, sB, slB) ≠ (gA, sA, slA) := fun hc => htr hc.symm
    have hd1' : d1 = updSlot (updSlot d gB sB slB (some m)) gA sA slA b0.memberId := by
      rw [hd1, handleSlotDrop_slot_eq, htv]
    have hXA : slotAt? (updSlot d gB sB slB (some m)) gA sA slA = some a0 := by
      rw [slotAt?_updSlot_ne htrBA]
      exact hA
    have hXB : slotAt? (updSlot d gB sB slB (some m)) gB sB slB
        = some (setMemberId (some m) b0) := slotAt?_updSlot_same hB _
    have hiB : slotAt? d1 gB sB slB = some (setMemberId (some m) b0) := by
      rw [hd1', slotAt?_updSlot_ne htr]
      exact hXB
    have hiA : slotAt? d1 gA sA slA = some (setMemberId b0.memberId a0) := by
      rw [hd1']
      exact slotAt?_updSlot_same hXA _
    refine ⟨hiB, hiA, ?_, ?_, dropSlot_self hA m⟩
    · intro g s sl hneA hneB
      rw [hd1', slotAt?_updSlot_ne (fun hc => hneA hc.symm),
        slotAt?_updSlot_ne (fun hc => hneB hc.symm)]
    · rw [handleSlotDrop_slot_eq, hiA]
      show updSlot (updSlot d1 gA sA slA (some m)) gB sB slB b0.memberId = d
      rw [hd1', updSlot_updSlot_same, updSlot_comm htr, updSlot_updSlot_same,
        updSlot_self hB rfl]
      exact updSlot_self hA hm

/-- Witness for C3 at a concrete document: dropping the slot payload from
slot (0,0,0) holding m1 onto slot (0,0,1) holding m2 swaps the two, keeps
slot (0,0,2) intact, the inverse drop restores the document, and a drop
onto the source slot itself is the identity. -/
theorem C3_slot_drop_swap_witness :
    slotAt? ((handleSlotDrop (.slot 0 0 0 "m1") 0 0 1 docAB).1) 0 0 1
        = some ⟨"sl2", some "m1", ""⟩ ∧
    slotAt? ((handleSlotDrop (.slot 0 0 0 "m1") 0 0 1 docAB).1) 0 0 0
        = some ⟨"sl1", some "m2", ""⟩ ∧
    slotAt? ((handleSlotDrop (.slot 0 0 0 "m1") 0 0 1 docAB).1) 0 0 2
        = slotAt? docAB 0 0 2 ∧
    (handleSlotDrop (.slot 0 0 1 "m1") 0 0 0
        ((handleSlotDrop (.slot 0 0 0 "m1") 0 0 1 docAB).1)).1 = docAB ∧
    (handleSlotDrop (.slot 0 0 0 "m1") 0 0 0 docAB).1 = docAB := by
  have h := C3_slot_drop_swap docAB 0 0 0 0 0 1 "m1" ⟨"sl1", some "m1", ""⟩
    ⟨"sl2", some "m2", ""⟩ (by decide) (by decide) (by decide) _ rfl
  exact ⟨h.1, h.2.1, h.2.2.1 0 0 2 (by decide) (by decide), h.2.2.2.1, h.2.2.2.2⟩

/- ===================== Unique-occurrence clearing (C7) ===================== -/

theorem countP_le_flatten_of_get {h : β → List α} {p : α → Bool} {L : List β}
    {n : Nat} {x : β} (hget : L[n]? = some x) :
    (h x).countP p ≤ ((L.map h).flatten).countP p := by
  induction L generalizing n with
  | nil => simp at hget
  | cons b bs ih =>
    cases n with
    | zero =>
      simp only [List.getElem?_cons_zero, Option.some.injEq] at hget
      subst hget
      simp only [List.map_cons, List.flatten_cons, List.countP_append]
      omega
    | succ m =>
      have := ih (n := m) (by simpa using hget)
      simp only [List.map_cons, List.flatten_cons, List.countP_append]
      omega

theorem countP_flatten_zero_of_other {h : β → List α} {p : α → Bool} {L : List β}
    {n : Nat} {x : β} (hget : L[n]? = some x)
    (hbound : ((L.map h).flatten).countP p ≤ 1) (hpos : 1 ≤ (h x).countP p)
    {i : Nat} {y : β} (hi : L[i]? = some y) (hne : i ≠ n) :
    (h y).countP p = 0 := by
  induction L generalizing n i with
  | nil => simp at hget
  | cons b bs ih =>
    simp only [List.map_cons, List.flatten_cons, List.countP_append] at hbound
    cases n with
    | zero =>
      simp only [List.getElem?_cons_zero, Option.some.injEq] at hget
      subst hget
      cases i with
      | zero => exact absurd rfl hne
      | succ j =>
        have hj : bs[j]? = some y := by simpa using hi
        have := countP_le_flatten_of_get (h := h) (p := p) hj
        omega
    | succ m =>
      have hm : bs[m]? = some x := by simpa using hget
      cases i with
      | zero =>
        simp only [List.getElem?_cons_zero, Option.some.injEq] at hi
        subst hi
        have := countP_le_flatten_of_get (h := h) (p := p) hm
        omega
      | succ j =>
        have hj : bs[j]? = some y := by simpa using hi
        have hb : ((bs.map h).flatten).countP p ≤ 1 := by omega
        exact ih hm hb hj (fun hc => hne (by simp [hc]))

theorem countP_elem_zero_of_other {p : α → Bool} {L : List α} {n : Nat} {x : α}
    (hget : L[n]? = some x) (hbound : L.countP p ≤ 1) (hpos : p x = true)
    {i : Nat} {y : α} (hi : L[i]? = some y) (hne : i ≠ n) :
    p y = false := by
  induction L generalizing n i with
  | nil => simp at hget
  | cons b bs ih =>
    rw [List.countP_cons] at hbound
    cases n with
    | zero =>
      simp only [List.getElem?_cons_zero, Option.some.injEq] at hget
      subst hget
      cases i with
      | zero => exact absurd rfl hne
      | succ j =>
        have hj : bs[j]? = some y := by simpa using hi
        have hz : bs.countP p = 0 := by
          simp only [hpos, if_true] at hbound
          omega
        have hmem : y ∈ bs := List.getElem?_mem hj
        have hny := List.countP_eq_zero.1 hz y hmem
        cases hpy : p y with
        | false => rfl
        | true => exact absurd hpy hny
    | succ m =>
      have hm : bs[m]? = some x := by simpa using hget
      cases i with
      | zero =>
        simp only [List.getElem?_cons_zero, Option.some.injEq] at hi
        subst hi
        have hx : x ∈ bs := List.getElem?_mem hm
        have h1 : 1 ≤ bs.countP p := List.countP_pos_iff.2 ⟨x, hx, hpos⟩
        cases hpy : p b with
        | false => rfl
        | true =>
          simp only [hpy, if_true] at hbound
          omega
      | succ j =>
        have hj : bs[j]? = some y := by simpa using hi
        have hb : bs.countP p ≤ 1 := by omega
        exact ih hm hb hj (fun hc => hne (by simp [hc]))

theorem clearFn_fix {m : String} {q : Slot} (h : ¬ (q.memberId = some m)) :
    clearFn m q = q := by
  unfold clearFn
  exact if_neg h

theorem clearSquad_fix {m : String} {sq : Squad}
    (h : ∀ q ∈ sq.slots, ¬ (q.memberId = some m)) : clearSquad m sq = sq := by
  show ({ sq with slots := sq.slots.map (clearFn m) } : Squad) = sq
  rw [map_id_of (fun q hq => clearFn_fix (h q hq))]

theorem clearGroup_fix {m : String} {grp : Group}
    (h : ∀ q ∈ groupSlots grp, ¬ (q.memberId = some m)) : clearGroup m grp = grp := by
  show ({ grp with squads := grp.squads.map (clearSquad m) } : Group) = grp
  rw [map_id_of (fun sq hsq => clearSquad_fix (fun q hq => h q (by
    simp only [groupSlots, List.mem_flatten, List.mem_map]
    exact ⟨sq.slots, ⟨sq, hsq, rfl⟩, hq⟩)))]

theorem clearMember_eq_updSlot_none {d : AppData} {g s sl : Nat} {slot0 : Slot}
    {m : String} (hslot : slotAt? d g s sl = some slot0)
    (hocc : slot0.memberId = some m) (huniq : occ m (slotsOf d) ≤ 1) :
    clearMember d m = updSlot d g s sl none := by
  obtain ⟨grp, sq, hg, hs, hsl⟩ := slotAt?_decomp hslot
  have hslot0mem : slot0 ∈ sq.slots := List.getElem?_mem hsl
  have hp0 : (fun q : Slot => decide (q.memberId = some m)) slot0 = true := by
    simp [hocc]
  have hposSq : 1 ≤ sq.slots.countP (fun q => q.memberId = some m) :=
    List.countP_pos_iff.2 ⟨slot0, hslot0mem, hp0⟩
  have hposGrp : 1 ≤ (groupSlots grp).countP (fun q => q.memberId = some m) :=
    le_trans hposSq (by
      simpa only [groupSlots] using
        countP_le_flatten_of_get (h := Squad.slots)
          (p := fun q => q.memberId = some m) hs)
  have htotal : ((d.groups.map groupSlots).flatten).countP
      (fun q => q.memberId = some m) ≤ 1 := by
    simpa [occ, slotsOf] using huniq
  have hboundGrp : (groupSlots grp).countP (fun q => q.memberId = some m) ≤ 1 :=
    le_trans (countP_le_flatten_of_get (h := groupSlots)
      (p := fun q => q.memberId = some m) hg) htotal
  have hboundSq : sq.slots.countP (fun q => q.memberId = some m) ≤ 1 :=
    le_trans (le_trans (countP_le_flatten_of_get (h := Squad.slots)
      (p := fun q => q.memberId = some m) hs) (le_of_eq (by simp [groupSlots])))
      hboundGrp
  -- groups other than g hold no occurrence of m
  have hF1 : ∀ i x, d.groups[i]? = some x → i ≠ g → clearGroup m x = x := by
    intro i x hi hne
    apply clearGroup_fix
    intro q hq
    have hz : (groupSlots x).countP (fun q => q.memberId = some m) = 0 := by
      have := countP_flatten_zero_of_other (h := groupSlots)
        (p := fun q => q.memberId = some m) hg htotal hposGrp hi hne
      exact this
    have := List.countP_eq_zero.1 hz q hq
    simpa using this
  -- squads of group g other than s hold no occurrence of m
  have hF2 : ∀ j x, grp.squads[j]? = some x → j ≠ s → clearSquad m x = x := by
    intro j x hj hne
    apply clearSquad_fix
    intro q hq
    have hGrpFlat : ((grp.squads.map Squad.slots).flatten).countP
        (fun q => q.memberId = some m) ≤ 1 := by
      simpa only [groupSlots] using hboundGrp
    have hz : x.slots.countP (fun q => q.memberId = some m) = 0 :=
      countP_flatten_zero_of_other (h := Squad.slots)
        (p := fun q => q.memberId = some m) hs hGrpFlat hposSq hj hne
    have := List.countP_eq_zero.1 hz q hq
    simpa using this
  -- slots of squad s other than sl do not hold m
  have hF3 : ∀ k x, sq.slots[k]? = some x → k ≠ sl → ¬ (x.memberId = some m) := by
    intro k x hk hne
    have := countP_elem_zero_of_other (p := fun q => q.memberId = some m)
      hsl hboundSq hp0 hk hne
    simpa using this
  -- assemble the three levels
  have hSlots : sq.slots.map (clearFn m) = updSlots sl none sq.slots := by
    unfold updSlots
    rw [map_eq_modifyIdx (n := sl) (fun k x hk hkne => clearFn_fix (hF3 k x hk hkne))]
    apply modifyIdx_congr_at
    intro x hx
    rw [hsl] at hx
    cases hx
    unfold clearFn
    rw [if_pos hocc]
    rfl
  have hSquads : grp.squads.map (clearSquad m) = updSquads s sl none grp.squads := by
    unfold updSquads
    rw [map_eq_modifyIdx (n := s) (fun j x hj hjne => hF2 j x hj hjne)]
    apply modifyIdx_congr_at
    intro x hx
    rw [hs] at hx
    cases hx
    show ({ sq with slots := sq.slots.map (clearFn m) } : Squad) = _
    rw [hSlots]
  have hGroups : d.groups.map (clearGroup m) = updGroups g s sl none d.groups := by
    unfold updGroups
    rw [map_eq_modifyIdx (n := g) (fun i x hi hine => hF1 i x hi hine)]
    apply modifyIdx_congr_at
    intro x hx
    rw [hg] at hx
    cases hx
    show ({ grp with squads := grp.squads.map (clearSquad m) } : Group) = _
    rw [hSquads]
  show ({ d with groups := d.groups.map (clearGroup m) } : AppData) =
    { d with groups := updGroups g s sl none d.groups }
  rw [hGroups]

/-- C7 counterexample: in a document where the armed member m1 occupies
the clicked slot but also occupies a second slot, an armed click on the
first slot changes the document (the duplicate occurrence is cleared),
so the claim as stated — for every state in which the armed member
occupies the clicked slot — fails. -/
theorem C7_counterexample :
    slotAt? docDup 0 0 0 = some ⟨"sl1", some "m1", ""⟩ ∧
    (handleSlotClick (some "m1") false 0 0 0 docDup).1 ≠ docDup := by
  decide

/-- C7 (amended): for every state in which the armed member m occupies
the clicked slot and occupies no other slot (the invariant the engine
maintains), clicking that slot leaves the document unchanged and
transitions the placement session to Idle. -/
theorem C7_self_click_noop (d : AppData) (g s sl : Nat) (m : String)
    (confirm : Bool) (slot0 : Slot) (hm : m ≠ "")
    (hslot : slotAt? d g s sl = some slot0) (hocc : slot0.memberId = some m)
    (huniq : occ m (slotsOf d) ≤ 1) :
    (handleSlotClick (some m) confirm g s sl d).1 = d ∧
    (handleSlotClick (some m) confirm g s sl d).2.2 = none := by
  have htr : jsTruthy (some m) = true := by simp [jsTruthy, hm]
  constructor
  · simp only [handleSlotClick, htr, if_true]
    show placeMember d g s sl m = d
    unfold placeMember
    rw [clearMember_eq_updSlot_none hslot hocc huniq, updSlot_updSlot_same]
    exact updSlot_self hslot hocc
  · simp [handleSlotClick, htr]

/-- Witness for the amended C7 at a concrete document. -/
theorem C7_self_click_noop_witness :
    (handleSlotClick (some "m1") false 0 0 0 docAB).1 = docAB ∧
    (handleSlotClick (some "m1") false 0 0 0 docAB).2.2 = none :=
  C7_self_click_noop docAB 0 0 0 "m1" false ⟨"sl1", some "m1", ""⟩ (by decide)
    (by decide) (by decide) (by decide)

/- ===================== Pool reconciliation (C2) ===================== -/

theorem slotAt?_handlePoolUpdate (newPool : List Member) (d : AppData) (g s sl : Nat) :
    slotAt? (handlePoolUpdate newPool d).1 g s sl
      = (slotAt? d g s sl).map (reconcileSlotFn (newPool.map Member.id)) := by
  unfold slotAt?
  have hg : (handlePoolUpdate newPool d).1.groups[g]?
      = (d.groups[g]?).map (reconcileGroup (newPool.map Member.id)) := by
    simp [handlePoolUpdate]
  rw [hg]
  cases d.groups[g]? with
  | none => rfl
  | some grp =>
    show (match (reconcileGroup (newPool.map Member.id) grp).squads[s]? with
      | none => none
      | some sq => sq.slots[sl]?) =
      Option.map (reconcileSlotFn (newPool.map Member.id))
        (match grp.squads[s]? with
        | none => none
        | some sq => sq.slots[sl]?)
    have hs : (reconcileGroup (newPool.map Member.id) grp).squads[s]?
        = (grp.squads[s]?).map (reconcileSquad (newPool.map Member.id)) := by
      simp [reconcileGroup]
    rw [hs]
    cases grp.squads[s]? with
    | none => rfl
    | some sq =>
      show (reconcileSquad (newPool.map Member.id) sq).slots[sl]?
        = Option.map (reconcileSlotFn (newPool.map Member.id)) sq.slots[sl]?
      simp [reconcileSquad]

theorem slotsOf_handlePoolUpdate (newPool : List Member) (d : AppData) :
    slotsOf (handlePoolUpdate newPool d).1
      = (slotsOf d).map (reconcileSlotFn (newPool.map Member.id)) := by
  simp only [slotsOf, handlePoolUpdate, List.map_map, List.map_flatten]
  rw [show groupSlots ∘ reconcileGroup (newPool.map Member.id)
      = List.map (reconcileSlotFn (newPool.map Member.id)) ∘ groupSlots by
    funext grp
    simp only [Function.comp_apply, groupSlots, reconcileGroup, List.map_map,
      List.map_flatten]
    rw [show Squad.slots ∘ reconcileSquad (newPool.map Member.id)
        = List.map (reconcileSlotFn (newPool.map Member.id)) ∘ Squad.slots from
      funext fun sq => rfl]]

/-- C2 counterexample: with a new pool whose only member has the empty
string as id and a slot referencing exactly that id, the pool update
nulls the reference although it is non-null and is the id of a pool
member — the claim's "exactly those … not the id of any member" fails on
the falsy empty string. -/
theorem C2_counterexample :
    "" ∈ ([⟨"", "空", "素问", "无", "无", ""⟩] : List Member).map Member.id ∧
    slotAt? docEmptyId 0 0 0 = some ⟨"sl1", some "", ""⟩ ∧
    slotAt? (handlePoolUpdate [⟨"", "空", "素问", "无", "无", ""⟩] docEmptyId).1 0 0 0
      = some ⟨"sl1", none, ""⟩ := by
  decide

theorem reconcileSlotFn_spec (poolIds : List String) (q : Slot) :
    reconcileSlotFn poolIds q = { q with memberId :=
      match q.memberId with
      | none => none
      | some s => if s ≠ "" ∧ s ∈ poolIds then some s else none } := by
  unfold reconcileSlotFn
  cases hm : q.memberId with
  | none => simp [jsTruthy, hm]
  | some s =>
    dsimp only
    by_cases hs : s = ""
    · subst hs
      simp [jsTruthy, hm]
    · by_cases hmem : s ∈ poolIds
      · simp [jsTruthy, hm, hs, hmem]
      · simp [jsTruthy, hm, hs, hmem]

/-- C2 (amended): the pool-update operation replaces the pool, keeps the
game config, persists, preserves the number of groups, and maps every
slot in place — a null reference stays null, a non-empty reference that
is the id of a member of the new pool is kept, and every other reference
(a truthy id no longer in the pool, or the falsy empty string even when a
pool member carries id "") is nulled, while slot id and note are
preserved — preserves every group and squad field and the squad/slot
counts, and afterwards every non-null slot.memberId references a member
present in the new pool. -/
theorem C2_pool_update_reconciles (newPool : List Member) (d : AppData) :
    (handlePoolUpdate newPool d).1.pool = newPool ∧
    (handlePoolUpdate newPool d).1.gameConfig = d.gameConfig ∧
    (handlePoolUpdate newPool d).2 = true ∧
    (handlePoolUpdate newPool d).1.groups.length = d.groups.length ∧
    (∀ g s sl slot0, slotAt? d g s sl = some slot0 →
      slotAt? (handlePoolUpdate newPool d).1 g s sl
        = some { slot0 with memberId :=
            match slot0.memberId with
            | none => none
            | some s => if s ≠ "" ∧ s ∈ newPool.map Member.id then some s else none }) ∧
    (∀ (i : Nat) (grp : Group), d.groups[i]? = some grp →
      ∃ grp' : Group, (handlePoolUpdate newPool d).1.groups[i]? = some grp' ∧
        grp'.id = grp.id ∧ grp'.name = grp.name ∧ grp'.theme = grp.theme ∧
        grp'.color = grp.color ∧ grp'.strategy = grp.strategy ∧
        grp'.newLine = grp.newLine ∧ grp'.squads.length = grp.squads.length ∧
        ∀ (j : Nat) (sq : Squad), grp.squads[j]? = some sq →
          ∃ sq' : Squad, grp'.squads[j]? = some sq' ∧ sq'.id = sq.id ∧
            sq'.name = sq.name ∧ sq'.slots.length = sq.slots.length) ∧
    (∀ q ∈ slotsOf (handlePoolUpdate newPool d).1, ∀ x : String,
      q.memberId = some x → x ∈ newPool.map Member.id) := by
  refine ⟨rfl, rfl, rfl, by simp [handlePoolUpdate], ?_, ?_, ?_⟩
  · intro g s sl slot0 h
    rw [slotAt?_handlePoolUpdate, h, Option.map_some', reconcileSlotFn_spec]
  · intro i grp hi
    refine ⟨reconcileGroup (newPool.map Member.id) grp, ?_, rfl, rfl, rfl, rfl,
      rfl, rfl, by simp [reconcileGroup], ?_⟩
    · show (d.groups.map (reconcileGroup (newPool.map Member.id)))[i]? = _
      simp [hi]
    · intro j sq hj
      refine ⟨reconcileSquad (newPool.map Member.id) sq, ?_, rfl, rfl,
        by simp [reconcileSquad]⟩
      show (grp.squads.map (reconcileSquad (newPool.map Member.id)))[j]? = _
      simp [hj]
  · intro q hq x hqx
    rw [slotsOf_handlePoolUpdate] at hq
    obtain ⟨q0, _, hq0⟩ := List.mem_map.1 hq
    subst hq0
    cases hb : (jsTruthy q0.memberId &&
        decide (q0.memberId.getD "" ∈ newPool.map Member.id)) with
    | false =>
      have hnone : (reconcileSlotFn (newPool.map Member.id) q0).memberId = none := by
        simp only [reconcileSlotFn]
        rw [hb]
        rfl
      rw [hnone] at hqx
      exact absurd hqx (by simp)
    | true =>
      have hkeep : (reconcileSlotFn (newPool.map Member.id) q0).memberId
          = q0.memberId := by
        simp only [reconcileSlotFn]
        rw [hb]
        rfl
      rw [hkeep] at hqx
      have hmem := of_decide_eq_true (Bool.and_eq_true .. ▸ hb).2
      rw [hqx] at hmem
      simpa using hmem

/-- Witness for the amended C2: updating docAB to a pool containing only
m2 persists, keeps m2 in its slot, and nulls the now-dangling m1 slot. -/
theorem C2_pool_update_reconciles_witness :
    (handlePoolUpdate [⟨"m2", "乙", "潮光", "无", "无", ""⟩] docAB).2 = true ∧
    (handlePoolUpdate [⟨"m2", "乙", "潮光", "无", "无", ""⟩] docAB).1.groups.length = 1 ∧
    slotAt? (handlePoolUpdate [⟨"m2", "乙", "潮光", "无", "无", ""⟩] docAB).1 0 0 0
      = some ⟨"sl1", none, ""⟩ ∧
    slotAt? (handlePoolUpdate [⟨"m2", "乙", "潮光", "无", "无", ""⟩] docAB).1 0 0 1
      = some ⟨"sl2", some "m2", ""⟩ := by
  have h := C2_pool_update_reconciles [⟨"m2", "乙", "潮光", "无", "无", ""⟩] docAB
  refine ⟨h.2.2.1, h.2.2.2.1.trans (by decide), ?_, ?_⟩
  · have h5 := h.2.2.2.2.1 0 0 0 ⟨"sl1", some "m1", ""⟩ (by decide)
    exact h5.trans (by decide)
  · have h5 := h.2.2.2.2.1 0 0 1 ⟨"sl2", some "m2", ""⟩ (by decide)
    exact h5.trans (by decide)

/-- C5: evaluation of the mutating handlers at a concrete document.  The
squad rename changes the in-memory document yet performs no saveData
call, while pool update, placement click, drop, structural update and
config update all persist — the code omits the persist required by the
spec for squad renames. -/
theorem C5_squad_rename_not_persisted :
    (handleSquadNameChange 0 0 "新一队" docAB).1 ≠ docAB ∧
    (handleSquadNameChange 0 0 "新一队" docAB).2 = false ∧
    (handlePoolUpdate docAB.pool docAB).2 = true ∧
    (handleSlotClick (some "m1") false 0 0 2 docAB).2.1 = true ∧
    (handleSlotDrop (.sidebar "m1") 0 0 2 docAB).2 = true ∧
    (handleSlotDrop (.slot 0 0 0 "m1") 0 0 2 docAB).2 = true ∧
    (handleStructureUpdate docAB docAB).2 = true ∧
    (handleGameConfigUpdate ⟨DEFAULT_ULT_SKILLS, DEFAULT_CLAN_SKILLS, none⟩ docAB).2
      = true := by
  decide

/- ===================== Group rows (C8) ===================== -/

theorem groupRowsGo_flatten (l : List Group) :
    ∀ current, (groupRowsGo current l).flatten = current ++ l := by
  induction l with
  | nil =>
    intro current
    by_cases h : current.isEmpty
    · simp only [groupRowsGo, if_pos h]
      simp [List.isEmpty_iff.1 h]
    · have hne : current ≠ [] := by simpa [List.isEmpty_iff] using h
      simp [groupRowsGo, hne]
  | cons g rest ih =>
    intro current
    unfold groupRowsGo
    by_cases h : g.newLine ∧ ¬ current.isEmpty
    · rw [if_pos h]
      simp [ih]
    · rw [if_neg h]
      simp [ih]

theorem groupRowsGo_ne_nil (l : List Group) :
    ∀ current, current ≠ [] → ∀ r ∈ groupRowsGo current l, r ≠ [] := by
  induction l with
  | nil =>
    intro current hc r hr
    unfold groupRowsGo at hr
    rw [if_neg (by simpa [List.isEmpty_iff] using hc)] at hr
    simp only [List.mem_singleton] at hr
    subst hr
    exact hc
  | cons g rest ih =>
    intro current hc r hr
    unfold groupRowsGo at hr
    by_cases h : g.newLine ∧ ¬ current.isEmpty
    · rw [if_pos h] at hr
      rcases List.mem_cons.1 hr with h1 | h2
      · subst h1; exact hc
      · exact ih [g] (by simp) r h2
    · rw [if_neg h] at hr
      exact ih (current ++ [g]) (by simp) r hr

theorem groupRowsGo_heads (l : List Group) :
    ∀ (h0 : Group) (t0 : List Group), h0.newLine = true →
      ∀ r ∈ groupRowsGo (h0 :: t0) l,
        ∃ h' t', r = h' :: t' ∧ h'.newLine = true := by
  induction l with
  | nil =>
    intro h0 t0 hh r hr
    unfold groupRowsGo at hr
    rw [if_neg (by simp)] at hr
    simp only [List.mem_singleton] at hr
    exact ⟨h0, t0, hr, hh⟩
  | cons g rest ih =>
    intro h0 t0 hh r hr
    unfold groupRowsGo at hr
    by_cases h : g.newLine ∧ ¬ (h0 :: t0).isEmpty
    · rw [if_pos h] at hr
      rcases List.mem_cons.1 hr with h1 | h2
      · exact ⟨h0, t0, h1, hh⟩
      · exact ih g [] h.1 r h2
    · rw [if_neg h] at hr
      have := ih h0 (t0 ++ [g]) hh r (by simpa using hr)
      exact this

theorem groupRowsGo_tail_heads (l : List Group) :
    ∀ current, ∀ r ∈ (groupRowsGo current l).drop 1,
      ∃ h' t', r = h' :: t' ∧ h'.newLine = true := by
  induction l with
  | nil =>
    intro current r hr
    unfold groupRowsGo at hr
    by_cases h : current.isEmpty
    · rw [if_pos h] at hr
      simp at hr
    · rw [if_neg h] at hr
      simp at hr
  | cons g rest ih =>
    intro current r hr
    unfold groupRowsGo at hr
    by_cases h : g.newLine ∧ ¬ current.isEmpty
    · rw [if_pos h] at hr
      simp only [List.drop_one, List.tail_cons] at hr
      exact groupRowsGo_heads rest g [] h.1 r hr
    · rw [if_neg h] at hr
      exact ih (current ++ [g]) r hr

theorem groupRowsGo_inner (l : List Group) :
    ∀ current, (∀ x ∈ current.drop 1, x.newLine = false) →
      ∀ r ∈ groupRowsGo current l, ∀ x ∈ r.drop 1, x.newLine = false := by
  induction l with
  | nil =>
    intro current hc r hr
    unfold groupRowsGo at hr
    by_cases h : current.isEmpty
    · rw [if_pos h] at hr
      simp at hr
    · rw [if_neg h] at hr
      simp only [List.mem_singleton] at hr
      subst hr
      exact hc
  | cons g rest ih =>
    intro current hc r hr
    unfold groupRowsGo at hr
    by_cases h : g.newLine ∧ ¬ current.isEmpty
    · rw [if_pos h] at hr
      rcases List.mem_cons.1 hr with h1 | h2
      · subst h1; exact hc
      · exact ih [g] (by simp) r h2
    · rw [if_neg h] at hr
      refine ih (current ++ [g]) ?_ r hr
      intro x hx
      cases current with
      | nil => simp at hx
      | cons c0 ct =>
        simp only [List.cons_append, List.drop_one, List.tail_cons,
          List.mem_append, List.mem_singleton] at hx
        rcases hx with hx1 | hx2
        · exact hc x (by simpa using hx1)
        · subst hx2
          cases hgn : x.newLine with
          | false => rfl
          | true => exact absurd ⟨hgn, by simp⟩ h

/-- C8: groupRows partitions the ordered group sequence into rows: the
concatenation of the rows equals the original sequence in order, every
row is non-empty, every row after the first starts with a newLine group,
and no group other than a row head has newLine set — so a new row begins
exactly at each newLine group except a first group of the sequence. -/
theorem C8_groupRows_partition (groups : List Group) :
    (groupRows groups).flatten = groups ∧
    (∀ r ∈ groupRows groups, r ≠ []) ∧
    (∀ r ∈ (groupRows groups).drop 1, ∃ h' t', r = h' :: t' ∧ h'.newLine = true) ∧
    (∀ r ∈ groupRows groups, ∀ x ∈ r.drop 1, x.newLine = false) := by
  refine ⟨by simpa using groupRowsGo_flatten groups [], ?_,
    groupRowsGo_tail_heads groups [], groupRowsGo_inner groups [] (by simp)⟩
  cases groups with
  | nil =>
    intro r hr
    simp [groupRows, groupRowsGo] at hr
  | cons g rest =>
    intro r hr
    have hstep : groupRows (g :: rest) = groupRowsGo [g] rest := by
      have hred : groupRowsGo [] (g :: rest) =
          if g.newLine = true ∧ ¬ (List.isEmpty ([] : List Group)) = true then
            ([] : List Group) :: groupRowsGo [g] rest
          else groupRowsGo ([] ++ [g]) rest := rfl
      show groupRowsGo [] (g :: rest) = groupRowsGo [g] rest
      rw [hred, if_neg (by simp), List.nil_append]
    rw [hstep] at hr
    exact groupRowsGo_ne_nil rest [g] (by simp) r hr

/-- Witness for C8 at a concrete three-group sequence in which the middle
group requests a new row. -/
theorem C8_groupRows_partition_witness :
    (groupRows [⟨"ga", "一团", none, none, none, false, []⟩,
      ⟨"gb", "二团", none, none, none, true, []⟩,
      ⟨"gc", "三团", none, none, none, false, []⟩]).flatten
      = [⟨"ga", "一团", none, none, none, false, []⟩,
         ⟨"gb", "二团", none, none, none, true, []⟩,
         ⟨"gc", "三团", none, none, none, false, []⟩] ∧
    (⟨"ga", "一团", none, none, none, false, []⟩ : Group) ∉
      ([] : List Group) := by
  refine ⟨(C8_groupRows_partition _).1, by simp⟩

/- ===================== JSON import (C9) ===================== -/

/-- C9: a parsed import document whose pool and groups fields are both
arrays is accepted after operator confirmation and wholesale replaces the
in-memory state (pool and groups come from the document alone, with a
config synthesized from defaults when the document lacks one); any other
shape is rejected with the invalid-format signal and the state is
unchanged; declining the confirmation also leaves the state unchanged. -/
theorem C9_import_validation (doc : RawDoc) (confirmOverwrite : Bool) (prev : AppData) :
    (∀ pool groups, doc.pool = .arr pool → doc.groups = .arr groups →
      (confirmOverwrite = true →
        handleImportJSON doc confirmOverwrite prev
          = (⟨pool, groups,
              match doc.gameConfig with
              | some c => some c
              | none => some (synthesizeConfig pool)⟩, .success)) ∧
      (confirmOverwrite = false →
        handleImportJSON doc confirmOverwrite prev = (prev, .cancelled))) ∧
    ((∀ pool groups, ¬ (doc.pool = .arr pool ∧ doc.groups = .arr groups)) →
      handleImportJSON doc confirmOverwrite prev = (prev, .invalidFormat)) := by
  constructor
  · intro pool groups hp hg
    constructor
    · intro hc
      subst hc
      unfold handleImportJSON
      rw [hp, hg]
      rfl
    · intro hc
      subst hc
      unfold handleImportJSON
      rw [hp, hg]
      rfl
  · intro hbad
    unfold handleImportJSON
    cases hp : doc.pool with
    | arr pool =>
      cases hg : doc.groups with
      | arr groups => exact absurd ⟨hp, hg⟩ (hbad pool groups)
      | notArr => rfl
      | missing => rfl
    | notArr => cases doc.groups <;> rfl
    | missing => cases doc.groups <;> rfl

/-- Witness for C9: a valid two-field document is accepted verbatim when
confirmed, kept out when declined, and a document whose pool is not an
array is rejected with the invalid-format signal. -/
theorem C9_import_validation_witness :
    handleImportJSON ⟨.arr docAB.pool, .arr docAB.groups, some ⟨["无"], ["无"], none⟩⟩
        true docDup
      = (⟨docAB.pool, docAB.groups, some ⟨["无"], ["无"], none⟩⟩, .success) ∧
    handleImportJSON ⟨.arr docAB.pool, .arr docAB.groups, some ⟨["无"], ["无"], none⟩⟩
        false docDup = (docDup, .cancelled) ∧
    handleImportJSON ⟨.notArr, .arr docAB.groups, none⟩ true docDup
      = (docDup, .invalidFormat) := by
  refine ⟨?_, ?_, ?_⟩
  · exact ((C9_import_validation ⟨.arr docAB.pool, .arr docAB.groups,
      some ⟨["无"], ["无"], none⟩⟩ true docDup).1 docAB.pool docAB.groups rfl rfl).1 rfl
  · exact ((C9_import_validation ⟨.arr docAB.pool, .arr docAB.groups,
      some ⟨["无"], ["无"], none⟩⟩ false docDup).1 docAB.pool docAB.groups rfl rfl).2 rfl
  · exact (C9_import_validation ⟨.notArr, .arr docAB.groups, none⟩ true docDup).2
      (fun pool groups h => by cases h.1)

/- ===================== Catalog membership lemmas (C4, C6) ===================== -/

theorem mem_insertNew_iff {x y : String} {acc : List String} :
    x ∈ insertNew acc y ↔ x ∈ acc ∨ x = y := by
  unfold insertNew
  split
  · rename_i hin
    constructor
    · exact Or.inl
    · rintro (hx | rfl)
      · exact hx
      · exact hin
  · simp [List.mem_append]

theorem mem_foldl_insertNew (l : List String) :
    ∀ acc x, x ∈ l.foldl insertNew acc ↔ x ∈ acc ∨ x ∈ l := by
  induction l with
  | nil => simp
  | cons a as ih =>
    intro acc x
    simp only [List.foldl_cons, ih, mem_insertNew_iff, List.mem_cons]
    tauto

theorem mem_dedupList {x : String} {l : List String} :
    x ∈ dedupList l ↔ x ∈ l := by
  simpa using mem_foldl_insertNew l [] x

theorem poolPhase_ults (gen : Nat → String) (st : BatchState)
    (name profession ult clan note : String) :
    (poolPhase gen st name profession ult clan note).ults = st.ults := by
  unfold poolPhase
  split <;> rfl

theorem poolPhase_clans (gen : Nat → String) (st : BatchState)
    (name profession ult clan note : String) :
    (poolPhase gen st name profession ult clan note).clans = st.clans := by
  unfold poolPhase
  split <;> rfl

theorem poolPhase_configChanged (gen : Nat → String) (st : BatchState)
    (name profession ult clan note : String) :
    (poolPhase gen st name profession ult clan note).configChanged
      = st.configChanged := by
  unfold poolPhase
  split <;> rfl

theorem skillPhase_pool (st : BatchState) (ult clan : String) :
    (skillPhase st ult clan).pool = st.pool := by
  unfold skillPhase
  dsimp only
  split <;> split <;> rfl

theorem skillPhase_added (st : BatchState) (ult clan : String) :
    (skillPhase st ult clan).added = st.added := by
  unfold skillPhase
  dsimp only
  split <;> split <;> rfl

theorem skillPhase_ctr (st : BatchState) (ult clan : String) :
    (skillPhase st ult clan).ctr = st.ctr := by
  unfold skillPhase
  dsimp only
  split <;> split <;> rfl

theorem skillPhase_ults_mono (st : BatchState) (ult clan : String)
    {x : String} (h : x ∈ st.ults) : x ∈ (skillPhase st ult clan).ults := by
  unfold skillPhase
  dsimp only
  split <;> split <;> simp_all [List.mem_append]

theorem skillPhase_clans_mono (st : BatchState) (ult clan : String)
    {x : String} (h : x ∈ st.clans) : x ∈ (skillPhase st ult clan).clans := by
  unfold skillPhase
  dsimp only
  split <;> split <;> simp_all [List.mem_append]

theorem skillPhase_ult_mem (st : BatchState) {ult : String} (clan : String)
    (h : ult ≠ "无") : ult ∈ (skillPhase st ult clan).ults := by
  unfold skillPhase
  dsimp only
  by_cases h1 : ult ≠ "无" ∧ ult ∉ st.ults
  · rw [if_pos h1]
    split <;> simp
  · rw [if_neg h1]
    have hin : ult ∈ st.ults := by
      by_contra hc
      exact h1 ⟨h, hc⟩
    split <;> simp_all

theorem skillPhase_clan_mem (st : BatchState) (ult : String) {clan : String}
    (h : clan ≠ "无") : clan ∈ (skillPhase st ult clan).clans := by
  unfold skillPhase
  dsimp only
  split <;> split
  all_goals
    first
      | (rename_i h2
         by_contra hc
         exact h2 ⟨h, hc⟩)
      | simp

theorem processLine_ults_mono (gen : Nat → String) (st : BatchState) (line : String)
    {x : String} (h : x ∈ st.ults) : x ∈ (processLine gen st line).ults := by
  unfold processLine
  dsimp only
  split
  · rw [poolPhase_ults]
    exact skillPhase_ults_mono st _ _ h
  · exact h

theorem processLine_clans_mono (gen : Nat → String) (st : BatchState) (line : String)
    {x : String} (h : x ∈ st.clans) : x ∈ (processLine gen st line).clans := by
  unfold processLine
  dsimp only
  split
  · rw [poolPhase_clans]
    exact skillPhase_clans_mono st _ _ h
  · exact h

theorem foldl_processLine_ults_mono (gen : Nat → String) (lines : List String) :
    ∀ st : BatchState, ∀ x ∈ st.ults, x ∈ (lines.foldl (processLine gen) st).ults := by
  induction lines with
  | nil => exact fun st x h => h
  | cons line rest ih =>
    intro st x h
    exact ih (processLine gen st line) x (processLine_ults_mono gen st line h)

theorem foldl_processLine_clans_mono (gen : Nat → String) (lines : List String) :
    ∀ st : BatchState, ∀ x ∈ st.clans, x ∈ (lines.foldl (processLine gen) st).clans := by
  induction lines with
  | nil => exact fun st x h => h
  | cons line rest ih =>
    intro st x h
    exact ih (processLine gen st line) x (processLine_clans_mono gen st line h)

/- ===================== Sentinel preservation and loss (C4) ===================== -/

/-- C4 counterexample: a wholesale config replacement whose textareas hold
only "A" and "B" produces catalogs without the sentinel, and installing it
makes the state's catalogs lack the sentinel — the claim fails for
updateConfig. -/
theorem C4_counterexample :
    (gameConfigSave "A" "B" CLASS_COLORS).ultSkills = ["A"] ∧
    (gameConfigSave "A" "B" CLASS_COLORS).clanSkills = ["B"] ∧
    "无" ∉ (gameConfigSave "A" "B" CLASS_COLORS).ultSkills ∧
    "无" ∉ (gameConfigSave "A" "B" CLASS_COLORS).clanSkills ∧
    (handleGameConfigUpdate (gameConfigSave "A" "B" CLASS_COLORS) docAB).1.gameConfig
      = some (gameConfigSave "A" "B" CLASS_COLORS) := by
  decide

/-- C4 (amended): the sentinel is present in the built-in default
catalogs, in every config synthesized by the JSON importer, and it is
preserved by batch import (whose effective catalogs only ever grow);
updateConfig, however, performs no validation, so only operations other
than a wholesale config replacement are guaranteed to keep the sentinel. -/
theorem mem_foldl_cond_insert (pick : Member → String) (l : List Member) :
    ∀ (acc : List String) (x : String), x ∈ acc →
      x ∈ l.foldl (fun a m => if pick m ≠ "无" then insertNew a (pick m) else a) acc := by
  induction l with
  | nil => exact fun acc x h => h
  | cons m ms ih =>
    intro acc x h
    simp only [List.foldl_cons]
    apply ih
    split
    · exact mem_insertNew_iff.2 (Or.inl h)
    · exact h

theorem effectiveUlts_mem (gen : Nat → String) (cfg : Option GameConfig)
    (pool : List Member) (lines : List String) {x : String}
    (hx : x ∈ availUlts cfg) :
    x ∈ effectiveUlts cfg (handleBatchImport gen cfg pool lines) := by
  unfold handleBatchImport effectiveUlts
  dsimp only
  split
  · rename_i c heq
    split at heq
    · cases heq
      exact foldl_processLine_ults_mono gen lines _ x (mem_dedupList.2 hx)
    · cases heq
  · exact hx

theorem effectiveClans_mem (gen : Nat → String) (cfg : Option GameConfig)
    (pool : List Member) (lines : List String) {x : String}
    (hx : x ∈ availClans cfg) :
    x ∈ effectiveClans cfg (handleBatchImport gen cfg pool lines) := by
  unfold handleBatchImport effectiveClans
  dsimp only
  split
  · rename_i c heq
    split at heq
    · cases heq
      exact foldl_processLine_clans_mono gen lines _ x (mem_dedupList.2 hx)
    · cases heq
  · exact hx

/-- C4 (amended): the sentinel is present in the built-in default
catalogs, in every config synthesized by the JSON importer, and its
catalog membership is preserved by batch import (whose effective catalogs
only ever grow); updateConfig, however, performs no validation, so only
operations other than a wholesale config replacement are guaranteed to
keep the sentinel. -/
theorem C4_sentinel_preserved_except_updateConfig (gen : Nat → String)
    (cfg : Option GameConfig) (pool : List Member) (lines : List String)
    (hu : "无" ∈ availUlts cfg) (hc : "无" ∈ availClans cfg) :
    "无" ∈ DEFAULT_ULT_SKILLS ∧ "无" ∈ DEFAULT_CLAN_SKILLS ∧
    (∀ p : List Member, "无" ∈ (synthesizeConfig p).ultSkills ∧
      "无" ∈ (synthesizeConfig p).clanSkills) ∧
    "无" ∈ effectiveUlts cfg (handleBatchImport gen cfg pool lines) ∧
    "无" ∈ effectiveClans cfg (handleBatchImport gen cfg pool lines) := by
  refine ⟨by decide, by decide, ?_, effectiveUlts_mem gen cfg pool lines hu,
    effectiveClans_mem gen cfg pool lines hc⟩
  intro p
  constructor
  · exact mem_foldl_cond_insert Member.ult p (dedupList DEFAULT_ULT_SKILLS) "无"
      (mem_dedupList.2 (by decide))
  · exact mem_foldl_cond_insert Member.clan p (dedupList DEFAULT_CLAN_SKILLS) "无"
      (mem_dedupList.2 (by decide))

/-- Witness for the amended C4 at a concrete batch import. -/
theorem C4_sentinel_preserved_witness :
    "无" ∈ effectiveUlts (some ⟨["红莲", "无"], ["金钟罩", "无"], none⟩)
      (handleBatchImport (fun n => toString n)
        (some ⟨["红莲", "无"], ["金钟罩", "无"], none⟩)
        [] ["丙 铁衣 狂啸"]) ∧
    "无" ∈ (synthesizeConfig docAB.pool).ultSkills :=
  ⟨(C4_sentinel_preserved_except_updateConfig (fun n => toString n)
      (some ⟨["红莲", "无"], ["金钟罩", "无"], none⟩) [] ["丙 铁衣 狂啸"]
      (by decide) (by decide)).2.2.2.1,
   ((C4_sentinel_preserved_except_updateConfig (fun n => toString n)
      (some ⟨["红莲", "无"], ["金钟罩", "无"], none⟩) [] []
      (by decide) (by decide)).2.2.1 docAB.pool).1⟩

/- ===================== Occupancy statistics (C10) ===================== -/

theorem countP_split (p q : α → Bool) (l : List α) :
    l.countP p = l.countP (fun a => p a && q a) + l.countP (fun a => p a && !q a) := by
  induction l with
  | nil => rfl
  | cons a as ih =>
    simp only [List.countP_cons, ih]
    cases hp : p a <;> cases hq : q a <;> simp [hp, hq] <;> omega

theorem bumpProf_keys (l : List (String × Nat)) (k : String) :
    (bumpProf l k).map Prod.fst = if l.any (fun p => p.1 = k) then l.map Prod.fst
      else l.map Prod.fst ++ [k] := by
  unfold bumpProf
  split
  · rw [List.map_map]
    apply List.map_congr_left
    intro p _
    simp only [Function.comp_apply]
    split <;> simp_all
  · simp

theorem sum_bump_in (k : String) (l : List (String × Nat))
    (hany : l.any (fun p => p.1 = k) = true) (hnd : (l.map Prod.fst).Nodup) :
    ((l.map (fun p => if p.1 = k then (p.1, p.2 + 1) else p)).map Prod.snd).sum
      = ((l.map Prod.snd).sum) + 1 := by
  induction l with
  | nil => simp at hany
  | cons p ps ih =>
    simp only [List.map_cons, List.nodup_cons] at hnd
    by_cases hp : p.1 = k
    · have hknot : ¬ ps.any (fun q => q.1 = k) = true := by
        rw [List.any_eq_true]
        rintro ⟨q, hq, hqk⟩
        apply hnd.1
        rw [← hp] at hqk
        have hq1 : q.1 = p.1 := by simpa using hqk
        rw [← hq1]
        exact List.mem_map_of_mem Prod.fst hq
      have hmap : ps.map (fun q => if q.1 = k then (q.1, q.2 + 1) else q) = ps := by
        apply map_id_of
        intro q hq
        rw [if_neg]
        intro hqk
        exact hknot (List.any_eq_true.2 ⟨q, hq, by simpa using hqk⟩)
      simp only [List.map_cons, if_pos hp, hmap, List.sum_cons]
      omega
    · have hany' : ps.any (fun q => q.1 = k) = true := by
        rcases List.any_eq_true.1 hany with ⟨q, hq, hqk⟩
        rcases List.mem_cons.1 hq with rfl | hq'
        · exact absurd (by simpa using hqk) hp
        · exact List.any_eq_true.2 ⟨q, hq', hqk⟩
      have ihv := ih hany' hnd.2
      simp only [List.map_cons, if_neg hp, List.sum_cons, ihv]
      omega

theorem sum_bumpProf_nodup (l : List (String × Nat)) (k : String)
    (hnd : (l.map Prod.fst).Nodup) :
    ((bumpProf l k).map Prod.snd).sum = ((l.map Prod.snd).sum) + 1 := by
  unfold bumpProf
  split
  · rename_i hany
    exact sum_bump_in k l hany hnd
  · simp

theorem statsFold_sum (pool : List Member) (slots : List Slot) :
    ∀ acc : List (String × Nat), (acc.map Prod.fst).Nodup →
      (((slots.foldl (fun acc sl =>
          if jsTruthy sl.memberId then
            match pool.find? (fun x => x.id = sl.memberId.getD "") with
            | some m => bumpProf acc m.profession
            | none => acc
          else acc) acc).map Prod.snd).sum
        = (acc.map Prod.snd).sum + slots.countP (fun sl => jsTruthy sl.memberId &&
            (pool.find? (fun x => x.id = sl.memberId.getD "")).isSome)) ∧
      (((slots.foldl (fun acc sl =>
          if jsTruthy sl.memberId then
            match pool.find? (fun x => x.id = sl.memberId.getD "") with
            | some m => bumpProf acc m.profession
            | none => acc
          else acc) acc).map Prod.fst).Nodup) := by
  induction slots with
  | nil =>
    intro acc hnd
    exact ⟨by simp, hnd⟩
  | cons sl rest ih =>
    intro acc hnd
    rw [List.foldl_cons, List.countP_cons]
    cases ht : jsTruthy sl.memberId with
    | false =>
      have hred : (if (false : Bool) then
          match pool.find? (fun x => x.id = sl.memberId.getD "") with
          | some m => bumpProf acc m.profession
          | none => acc
        else acc) = acc := rfl
      rw [hred]
      have hih := ih acc hnd
      refine ⟨?_, hih.2⟩
      rw [hih.1]
      simp
    | true =>
      cases hf : pool.find? (fun x => x.id = sl.memberId.getD "") with
      | none =>
        have hred : (if (true : Bool) then
            match (none : Option Member) with
            | some m => bumpProf acc m.profession
            | none => acc
          else acc) = acc := rfl
        rw [hred]
        have hih := ih acc hnd
        refine ⟨?_, hih.2⟩
        rw [hih.1]
        simp
      | some m =>
        have hred : (if (true : Bool) then
            match (some m : Option Member) with
            | some m => bumpProf acc m.profession
            | none => acc
          else acc) = bumpProf acc m.profession := rfl
        rw [hred]
        have hnd' : ((bumpProf acc m.profession).map Prod.fst).Nodup := by
          rw [bumpProf_keys]
          split
          · exact hnd
          · rename_i hany
            rw [List.nodup_append]
            refine ⟨hnd, List.nodup_singleton _, ?_⟩
            intro a ha hb
            simp only [List.mem_singleton] at hb
            subst hb
            apply hany
            rw [List.any_eq_true]
            rcases List.mem_map.1 ha with ⟨q, hq, hqa⟩
            exact ⟨q, hq, by simpa using hqa⟩
        have hih := ih (bumpProf acc m.profession) hnd'
        refine ⟨?_, hih.2⟩
        rw [hih.1, sum_bumpProf_nodup acc m.profession hnd]
        simp
        omega

/-- C10 counterexample: a slot holding the empty-string member id has a
non-null memberId yet is not counted in the total assigned count, so the
claim's "every slot with a non-null memberId" fails on JavaScript
truthiness. -/
theorem C10_counterexample :
    statsCount docEmptyId = 0 ∧
    (slotsOf docEmptyId).countP (fun q => q.memberId ≠ none) = 1 := by
  decide

/-- C10 (amended): the stats total counts exactly the slots with a truthy
(non-null, non-empty) memberId, resolvable or not; the per-profession
counts sum to the number of truthy slots whose memberId resolves to a
pool member; hence the total equals that sum plus the number of truthy
dangling references and strictly exceeds it on a document with a dangling
reference, as docDangling shows (total 2 versus sum 1). -/
theorem C10_stats_total_vs_professions (d : AppData) :
    statsProfSum d = (slotsOf d).countP (fun sl => jsTruthy sl.memberId &&
      (d.pool.find? (fun x => x.id = sl.memberId.getD "")).isSome) ∧
    statsCount d = statsProfSum d + (slotsOf d).countP (fun sl =>
      jsTruthy sl.memberId &&
        !(d.pool.find? (fun x => x.id = sl.memberId.getD "")).isSome) ∧
    statsCount docDangling = 2 ∧ statsProfSum docDangling = 1 := by
  have haux := statsFold_sum d.pool (slotsOf d) [] (by simp)
  have h1 : statsProfSum d = (slotsOf d).countP (fun sl => jsTruthy sl.memberId &&
      (d.pool.find? (fun x => x.id = sl.memberId.getD "")).isSome) := by
    unfold statsProfSum statsProfCounts
    rw [haux.1]
    simp
  refine ⟨h1, ?_, by decide, by decide⟩
  rw [h1]
  unfold statsCount
  exact countP_split _ _ (slotsOf d)

/- ===================== Batch import per-line semantics (C6) ===================== -/

theorem skillPhase_config_false (st : BatchState) (ult clan : String) :
    (skillPhase st ult clan).configChanged = false → skillPhase st ult clan = st := by
  unfold skillPhase
  dsimp only
  split <;> split <;> intro h <;> first | rfl | exact absurd h (by simp)

theorem skillPhase_config_mono (st : BatchState) (ult clan : String)
    (h : st.configChanged = true) : (skillPhase st ult clan).configChanged = true := by
  unfold skillPhase
  dsimp only
  split <;> split <;> simp_all

theorem processLine_config_false (gen : Nat → String) (st : BatchState) (line : String) :
    (processLine gen st line).configChanged = false →
      (processLine gen st line).ults = st.ults ∧
      (processLine gen st line).clans = st.clans := by
  unfold processLine
  dsimp only
  split
  · intro h
    rw [poolPhase_configChanged] at h
    have hs := skillPhase_config_false st _ _ h
    rw [poolPhase_ults, poolPhase_clans, hs]
    exact ⟨rfl, rfl⟩
  · exact fun _ => ⟨rfl, rfl⟩

theorem processLine_config_mono (gen : Nat → String) (st : BatchState) (line : String)
    (h : st.configChanged = true) : (processLine gen st line).configChanged = true := by
  unfold processLine
  dsimp only
  split
  · rw [poolPhase_configChanged]
    exact skillPhase_config_mono st _ _ h
  · exact h

theorem foldl_config_mono (gen : Nat → String) (lines : List String) :
    ∀ st : BatchState, st.configChanged = true →
      (lines.foldl (processLine gen) st).configChanged = true := by
  induction lines with
  | nil => exact fun st h => h
  | cons line rest ih =>
    intro st h
    exact ih (processLine gen st line) (processLine_config_mono gen st line h)

theorem foldl_config_false (gen : Nat → String) (lines : List String) :
    ∀ st : BatchState, (lines.foldl (processLine gen) st).configChanged = false →
      (lines.foldl (processLine gen) st).ults = st.ults ∧
      (lines.foldl (processLine gen) st).clans = st.clans := by
  induction lines with
  | nil => exact fun st _ => ⟨rfl, rfl⟩
  | cons line rest ih =>
    intro st h
    rw [List.foldl_cons] at h ⊢
    have hline : (processLine gen st line).configChanged = false := by
      cases hc : (processLine gen st line).configChanged
      · rfl
      · exact absurd (foldl_config_mono gen rest _ hc) (by simp [h])
    have h1 := processLine_config_false gen st line hline
    have h2 := ih (processLine gen st line) h
    exact ⟨h2.1.trans h1.1, h2.2.trans h1.2⟩

theorem mem_ults_foldl_of_line (gen : Nat → String) {lines : List String} {line : String}
    (hmem : line ∈ lines) (hlen : (tokens line).length ≥ 2)
    (hu : jsOr (tokens line)[2]? "无" ≠ "无") (st : BatchState) :
    jsOr (tokens line)[2]? "无" ∈ (lines.foldl (processLine gen) st).ults := by
  obtain ⟨l1, l2, rfl⟩ := List.append_of_mem hmem
  rw [List.foldl_append, List.foldl_cons]
  apply foldl_processLine_ults_mono
  unfold processLine
  dsimp only
  rw [if_pos hlen, poolPhase_ults]
  exact skillPhase_ult_mem _ _ hu

theorem mem_clans_foldl_of_line (gen : Nat → String) {lines : List String} {line : String}
    (hmem : line ∈ lines) (hlen : (tokens line).length ≥ 2)
    (hc : jsOr (tokens line)[3]? "无" ≠ "无") (st : BatchState) :
    jsOr (tokens line)[3]? "无" ∈ (lines.foldl (processLine gen) st).clans := by
  obtain ⟨l1, l2, rfl⟩ := List.append_of_mem hmem
  rw [List.foldl_append, List.foldl_cons]
  apply foldl_processLine_clans_mono
  unfold processLine
  dsimp only
  rw [if_pos hlen, poolPhase_clans]
  exact skillPhase_clan_mem _ _ hc

theorem effectiveUlts_of_fin (gen : Nat → String) (cfg : Option GameConfig)
    (pool : List Member) (lines : List String) {u : String}
    (hfin : u ∈ (lines.foldl (processLine gen) (initBatch cfg pool)).ults) :
    u ∈ effectiveUlts cfg (handleBatchImport gen cfg pool lines) := by
  unfold handleBatchImport effectiveUlts
  dsimp only
  split
  · rename_i c heq
    split at heq
    · cases heq
      exact hfin
    · cases heq
  · rename_i heq
    split at heq
    · cases heq
    · rename_i hch
      have hfalse : (lines.foldl (processLine gen) (initBatch cfg pool)).configChanged
          = false := by
        cases hcc : (lines.foldl (processLine gen) (initBatch cfg pool)).configChanged
        · rfl
        · exact absurd hcc hch
      have hu := foldl_config_false gen lines (initBatch cfg pool) hfalse
      rw [hu.1] at hfin
      exact mem_dedupList.1 hfin

theorem effectiveClans_of_fin (gen : Nat → String) (cfg : Option GameConfig)
    (pool : List Member) (lines : List String) {u : String}
    (hfin : u ∈ (lines.foldl (processLine gen) (initBatch cfg pool)).clans) :
    u ∈ effectiveClans cfg (handleBatchImport gen cfg pool lines) := by
  unfold handleBatchImport effectiveClans
  dsimp only
  split
  · rename_i c heq
    split at heq
    · cases heq
      exact hfin
    · cases heq
  · rename_i heq
    split at heq
    · cases heq
    · rename_i hch
      have hfalse : (lines.foldl (processLine gen) (initBatch cfg pool)).configChanged
          = false := by
        cases hcc : (lines.foldl (processLine gen) (initBatch cfg pool)).configChanged
        · rfl
        · exact absurd hcc hch
      have hu := foldl_config_false gen lines (initBatch cfg pool) hfalse
      rw [hu.2] at hfin
      exact mem_dedupList.1 hfin

theorem poolPhase_found (gen : Nat → String) (st : BatchState)
    (name profession ult clan note : String) {i : Nat}
    (hfind : st.pool.findIdx? (fun m => m.name = name) = some i) :
    poolPhase gen st name profession ult clan note
      = { st with pool := modifyIdx (fun old =>
          { old with profession := profession, ult := ult, clan := clan,
                     note := if note = "" then old.note else note }) i st.pool } := by
  unfold poolPhase
  rw [hfind]

theorem poolPhase_notfound (gen : Nat → String) (st : BatchState)
    (name profession ult clan note : String)
    (hfind : st.pool.findIdx? (fun m => m.name = name) = none) :
    poolPhase gen st name profession ult clan note
      = { st with pool := st.pool ++ [⟨gen st.ctr, name, profession, ult, clan, note⟩],
                  added := st.added + 1, ctr := st.ctr + 1 } := by
  unfold poolPhase
  rw [hfind]

theorem processLine_long (gen : Nat → String) (st : BatchState) (line : String)
    (hlen : (tokens line).length ≥ 2) :
    processLine gen st line = poolPhase gen
      (skillPhase st (jsOr (tokens line)[2]? "无") (jsOr (tokens line)[3]? "无"))
      ((tokens line).getD 0 "") ((tokens line).getD 1 "")
      (jsOr (tokens line)[2]? "无") (jsOr (tokens line)[3]? "无")
      (jsOr (tokens line)[4]? "") := by
  unfold processLine
  dsimp only
  rw [if_pos hlen]

/-- C6: batch-import line semantics.  A line with fewer than two tokens
is skipped without being counted as added; a line whose first token
matches an existing pool member by name updates that member in place —
profession from the second token, ult and clan from the third and fourth
tokens defaulting to the sentinel, note overwritten only when the fifth
token is non-empty — preserving its id and every other member, without
changing the pool length or the added-count; a line with an unmatched
name appends a new member carrying the next fresh id and increments the
added-count; and every non-sentinel ult or clan token of a processed line
is present in the effective catalogs returned by the import. -/
theorem C6_batch_import_lines (gen : Nat → String) (cfg : Option GameConfig)
    (localPool : List Member) (lines : List String) :
    (∀ (st : BatchState) (line : String), (tokens line).length < 2 →
      processLine gen st line = st) ∧
    (∀ (st : BatchState) (line : String) (i : Nat) (old : Member),
      (tokens line).length ≥ 2 →
      st.pool.findIdx? (fun m => m.name = (tokens line).getD 0 "") = some i →
      st.pool[i]? = some old →
      (processLine gen st line).pool[i]?
        = some { old with profession := (tokens line).getD 1 "",
                          ult := jsOr (tokens line)[2]? "无",
                          clan := jsOr (tokens line)[3]? "无",
                          note := if jsOr (tokens line)[4]? "" = "" then old.note
                                  else jsOr (tokens line)[4]? "" } ∧
      (∀ j : Nat, j ≠ i → (processLine gen st line).pool[j]? = st.pool[j]?) ∧
      (processLine gen st line).pool.length = st.pool.length ∧
      (processLine gen st line).added = st.added) ∧
    (∀ (st : BatchState) (line : String),
      (tokens line).length ≥ 2 →
      st.pool.findIdx? (fun m => m.name = (tokens line).getD 0 "") = none →
      (processLine gen st line).pool
        = st.pool ++ [⟨gen st.ctr, (tokens line).getD 0 "", (tokens line).getD 1 "",
            jsOr (tokens line)[2]? "无", jsOr (tokens line)[3]? "无",
            jsOr (tokens line)[4]? ""⟩] ∧
      (processLine gen st line).added = st.added + 1) ∧
    (∀ line ∈ lines, (tokens line).length ≥ 2 →
      (jsOr (tokens line)[2]? "无" ≠ "无" →
        jsOr (tokens line)[2]? "无" ∈
          effectiveUlts cfg (handleBatchImport gen cfg localPool lines)) ∧
      (jsOr (tokens line)[3]? "无" ≠ "无" →
        jsOr (tokens line)[3]? "无" ∈
          effectiveClans cfg (handleBatchImport gen cfg localPool lines))) := by
  refine ⟨?_, ?_, ?_, ?_⟩
  · intro st line hshort
    unfold processLine
    dsimp only
    rw [if_neg (by omega)]
  · intro st line i old hlen hfind hold
    have hfind2 : (skillPhase st (jsOr (tokens line)[2]? "无")
        (jsOr (tokens line)[3]? "无")).pool.findIdx?
          (fun m => m.name = (tokens line).getD 0 "") = some i := by
      rw [skillPhase_pool]
      exact hfind
    rw [processLine_long gen st line hlen, poolPhase_found gen _ _ _ _ _ _ hfind2]
    have hpool : (skillPhase st (jsOr (tokens line)[2]? "无")
        (jsOr (tokens line)[3]? "无")).pool = st.pool := skillPhase_pool st _ _
    refine ⟨?_, ?_, ?_, ?_⟩
    · show (modifyIdx _ i (skillPhase st _ _).pool)[i]? = _
      rw [hpool, modifyIdx_get?_eq, hold]
      rfl
    · intro j hj
      show (modifyIdx _ i (skillPhase st _ _).pool)[j]? = _
      rw [hpool]
      exact modifyIdx_get?_ne _ hj _
    · show (modifyIdx _ i (skillPhase st _ _).pool).length = _
      rw [hpool, modifyIdx_length]
    · show (skillPhase st _ _).added = st.added
      exact skillPhase_added st _ _
  · intro st line hlen hfind
    have hfind2 : (skillPhase st (jsOr (tokens line)[2]? "无")
        (jsOr (tokens line)[3]? "无")).pool.findIdx?
          (fun m => m.name = (tokens line).getD 0 "") = none := by
      rw [skillPhase_pool]
      exact hfind
    rw [processLine_long gen st line hlen, poolPhase_notfound gen _ _ _ _ _ _ hfind2]
    constructor
    · show (skillPhase st _ _).pool ++
        [⟨gen (skillPhase st _ _).ctr, _, _, _, _, _⟩] = _
      rw [skillPhase_pool, skillPhase_ctr]
    · show (skillPhase st _ _).added + 1 = st.added + 1
      rw [skillPhase_added]
  · intro line hmem hlen
    constructor
    · intro hu
      exact effectiveUlts_of_fin gen cfg localPool lines
        (mem_ults_foldl_of_line gen hmem hlen hu _)
    · intro hc
      exact effectiveClans_of_fin gen cfg localPool lines
        (mem_clans_foldl_of_line gen hmem hlen hc _)

/-- Witness for C6 on a concrete import: a one-token line is skipped, a
line matching 甲 updates that member in place keeping id m1, a line for
the unknown 乙 appends a fresh member and counts it, and the novel ult
红莲 ends up in the effective catalog. -/
theorem C6_batch_import_lines_witness :
    processLine (fun _ => "fresh1")
      (initBatch (some ⟨["无"], ["无"], none⟩) [⟨"m1", "甲", "素问", "无", "无", ""⟩]) "短"
      = initBatch (some ⟨["无"], ["无"], none⟩) [⟨"m1", "甲", "素问", "无", "无", ""⟩] ∧
    (processLine (fun _ => "fresh1")
      (initBatch (some ⟨["无"], ["无"], none⟩) [⟨"m1", "甲", "素问", "无", "无", ""⟩])
      "甲 铁衣 红莲").pool[0]? = some ⟨"m1", "甲", "铁衣", "红莲", "无", ""⟩ ∧
    (processLine (fun _ => "fresh1")
      (initBatch (some ⟨["无"], ["无"], none⟩) [⟨"m1", "甲", "素问", "无", "无", ""⟩])
      "乙 潮光").pool
      = [⟨"m1", "甲", "素问", "无", "无", ""⟩, ⟨"fresh1", "乙", "潮光", "无", "无", ""⟩] ∧
    (processLine (fun _ => "fresh1")
      (initBatch (some ⟨["无"], ["无"], none⟩) [⟨"m1", "甲", "素问", "无", "无", ""⟩])
      "乙 潮光").added = 1 ∧
    "红莲" ∈ effectiveUlts (some ⟨["无"], ["无"], none⟩)
      (handleBatchImport (fun _ => "fresh1") (some ⟨["无"], ["无"], none⟩)
        [⟨"m1", "甲", "素问", "无", "无", ""⟩] ["甲 铁衣 红莲", "乙 潮光", "短"]) := by
  have h := C6_batch_import_lines (fun _ => "fresh1") (some ⟨["无"], ["无"], none⟩)
    [⟨"m1", "甲", "素问", "无", "无", ""⟩] ["甲 铁衣 红莲", "乙 潮光", "短"]
  have hb := h.2.1 (initBatch (some ⟨["无"], ["无"], none⟩)
      [⟨"m1", "甲", "素问", "无", "无", ""⟩]) "甲 铁衣 红莲" 0
      ⟨"m1", "甲", "素问", "无", "无", ""⟩ (by decide) (by decide) (by decide)
  have hc := h.2.2.1 (initBatch (some ⟨["无"], ["无"], none⟩)
      [⟨"m1", "甲", "素问", "无", "无", ""⟩]) "乙 潮光" (by decide) (by decide)
  refine ⟨h.1 _ "短" (by decide), hb.1.trans (by decide), hc.1.trans (by decide),
    hc.2.trans (by decide), (h.2.2.2 "甲 铁衣 红莲" (by decide) (by decide)).1 (by decide)⟩

end NshRoster
